import Mathlib

/-!
Verification of the job-application tracker (`src/main.py`).

The development shallowly embeds the program:

* `PyDate` / `parseDateChars` model `datetime.strptime(s, "%Y-%m-%d")`:
  the format regex used by CPython's `_strptime` is
  `\d\d\d\d` for `%Y`, `1[0-2]|0[1-9]|[1-9]` for `%m` and
  `3[01]|[12]\d|0[1-9]|[1-9]` for `%d`, separated by literal hyphens and
  required to match the whole string; the subsequent `datetime` construction
  additionally requires `1 <= year` and `day <= daysInMonth year month`.
  (Digits are modelled as ASCII `0`-`9`.)
* `JobApplication` mirrors the Python class; `jobLt` is `__lt__`.
* `siftdownLoop`/`siftupLoop`/`heappush`/`heappop` are the CPython `heapq`
  algorithms, transcribed over `List` with explicit index arithmetic.
* `JobTracker` models object aliasing between `job_heap` and `jobs` with an
  arena (`store`): the heap and the dictionary hold indices into the arena,
  exactly as the Python lists/dicts hold references to shared objects.
* `dictDel` returns `none` when the key is absent, modelling the `KeyError`
  raised by `del self.jobs[...]`.
-/

/-- Calendar date as produced by Python's `datetime.strptime(s, "%Y-%m-%d")`. -/
structure PyDate where
  year : Nat
  month : Nat
  day : Nat
deriving DecidableEq, Repr

/-- Split a character list at every occurrence of `sep` (like `str.split`). -/
def splitOnChar (sep : Char) : List Char → List (List Char)
  | [] => [[]]
  | c :: t =>
    let r := splitOnChar sep t
    if c = sep then [] :: r
    else
      match r with
      | [] => [[c]]
      | h :: t2 => (c :: h) :: t2

/-- Joins pieces with a separator character; inverse of `splitOnChar`. -/
def joinSep (sep : Char) : List (List Char) → List Char
  | [] => []
  | [x] => x
  | x :: xs => x ++ sep :: joinSep sep xs

/-- Numeric value of a digit string, as `int()` computes it on the
regex capture groups of `_strptime`. -/
def natOfDigits (s : List Char) : Nat :=
  s.foldl (fun acc c => 10 * acc + (c.toNat - 48)) 0

/-- `some` value exactly when the characters are a nonempty digit string. -/
def charsToNat? (s : List Char) : Option Nat :=
  if s ≠ [] ∧ s.all Char.isDigit then some (natOfDigits s) else none

/-- Gregorian leap-year rule used by `datetime`. -/
def isLeapYear (y : Nat) : Bool :=
  y % 4 == 0 && (y % 100 != 0 || y % 400 == 0)

/-- Number of days of a month, as validated by `datetime.__new__`. -/
def daysInMonth (y m : Nat) : Nat :=
  if m = 2 then (if isLeapYear y then 29 else 28)
  else if m = 4 ∨ m = 6 ∨ m = 9 ∨ m = 11 then 30
  else 31

/-- `datetime.strptime(s, "%Y-%m-%d")`, returning `none` where Python raises
`ValueError`.  The year must be exactly four digits and at least 1 (`MINYEAR`),
month and day are one or two digits (`%m`/`%d` accept unpadded values), and the
day must exist in the given month. -/
def parseDateChars (s : List Char) : Option PyDate :=
  match splitOnChar '-' s with
  | [ys, ms, ds] =>
    match charsToNat? ys, charsToNat? ms, charsToNat? ds with
    | some yv, some mv, some dv =>
      if ys.length = 4 ∧ 1 ≤ yv ∧
         ms.length ≤ 2 ∧ 1 ≤ mv ∧ mv ≤ 12 ∧
         ds.length ≤ 2 ∧ 1 ≤ dv ∧ dv ≤ daysInMonth yv mv
      then some ⟨yv, mv, dv⟩ else none
    | _, _, _ => none
  | _ => none

/-- `Modelled from the spec:` the deadline-string language of §6 as the code
realises it — the full-match semantics of `_strptime`'s regex for
`"%Y-%m-%d"` followed by `datetime` range validation.  Used as the
specification side of the parsing characterisation. -/
def StrptimeMatch (s : List Char) : Prop :=
  ∃ ys ms ds : List Char,
    s = ys ++ '-' :: (ms ++ '-' :: ds) ∧
    ys.length = 4 ∧ (∀ c ∈ ys, c.isDigit) ∧
    1 ≤ ms.length ∧ ms.length ≤ 2 ∧ (∀ c ∈ ms, c.isDigit) ∧
    1 ≤ ds.length ∧ ds.length ≤ 2 ∧ (∀ c ∈ ds, c.isDigit) ∧
    1 ≤ natOfDigits ms ∧ natOfDigits ms ≤ 12 ∧
    1 ≤ natOfDigits ds ∧ natOfDigits ds ≤ 31 ∧
    1 ≤ natOfDigits ys ∧
    natOfDigits ds ≤ daysInMonth (natOfDigits ys) (natOfDigits ms)

/-- The record class `JobApplication` of `src/main.py`. -/
structure JobApplication where
  company : String
  position : String
  deadline : PyDate
  importance : Int
  status : String
deriving DecidableEq, Repr

/-- `JobApplication.VALID_STATUSES`. -/
def VALID_STATUSES : List String := ["Pending", "Processed", "Interviewing", "Rejected"]

/-- Comparison of `datetime` objects: lexicographic on (year, month, day). -/
def dateLt (a b : PyDate) : Bool :=
  decide (a.year < b.year ∨ (a.year = b.year ∧
    (a.month < b.month ∨ (a.month = b.month ∧ a.day < b.day))))

/-- `JobApplication.__lt__` (lines 28-36 of `src/main.py`). -/
def jobLt (a b : JobApplication) : Bool :=
  if a.importance = b.importance then dateLt a.deadline b.deadline
  else decide (a.importance > b.importance)

/-- `JobApplication.__init__`: parses the deadline, validates the importance,
and otherwise returns the fresh record with status `"Pending"`.  The error
strings are the `ValueError` messages of lines 22 and 24. -/
def JobApplication.make (company position deadline : String) (importance : Int) :
    Except String JobApplication :=
  match parseDateChars deadline.data with
  | none => Except.error "Deadline must be in YYYY-MM-DD format."
  | some dl =>
    if importance ≤ 0 then Except.error "Importance must be a positive integer."
    else Except.ok { company := company, position := position, deadline := dl,
                     importance := importance, status := "Pending" }

/-- Default record used only as the out-of-range value of `List.getD`;
never reachable in verified states. -/
def dfltJob : JobApplication :=
  { company := "", position := "", deadline := ⟨1, 1, 1⟩, importance := 1, status := "Pending" }

/-- Index of the parent of heap slot `c`, i.e. `(pos - 1) >> 1`. -/
def parentIdx (c : Nat) : Nat := (c - 1) / 2

/-- The loop of `heapq._siftdown`: bubble `newitem` up from `pos` towards
`startpos`, moving parents down while `newitem < parent`.  `fuel` bounds the
iteration count structurally; since `pos` strictly decreases, `fuel = pos`
(supplied by `siftdown`) never runs out. -/
def siftdownLoop {α : Type} (lt : α → α → Bool) (d : α) (newitem : α) :
    Nat → List α → Nat → Nat → List α
  | 0, heap, _, pos => heap.set pos newitem
  | fuel + 1, heap, startpos, pos =>
    if startpos < pos then
      let parent := heap.getD (parentIdx pos) d
      if lt newitem parent then
        siftdownLoop lt d newitem fuel (heap.set pos parent) startpos (parentIdx pos)
      else heap.set pos newitem
    else heap.set pos newitem

/-- `heapq._siftdown(heap, startpos, pos)`: reads `newitem = heap[pos]` and
runs the bubble-up loop. -/
def siftdown {α : Type} (lt : α → α → Bool) (d : α) (heap : List α)
    (startpos pos : Nat) : List α :=
  match heap.get? pos with
  | none => heap
  | some newitem => siftdownLoop lt d newitem pos heap startpos pos

/-- The loop of `heapq._siftup`: sink the hole at `pos` to the bottom, always
moving the smaller child up; returns the final hole position.  `fuel` bounds
the iteration count structurally; since the hole moves strictly down inside
the list, `fuel = heap.length` (supplied by `siftup`) never runs out. -/
def siftupLoop {α : Type} (lt : α → α → Bool) (d : α) :
    Nat → List α → Nat → List α × Nat
  | 0, heap, pos => (heap, pos)
  | fuel + 1, heap, pos =>
    if 2 * pos + 1 < heap.length then
      let childpos :=
        if 2 * pos + 2 < heap.length ∧
           lt (heap.getD (2 * pos + 1) d) (heap.getD (2 * pos + 2) d) = false
        then 2 * pos + 2 else 2 * pos + 1
      siftupLoop lt d fuel (heap.set pos (heap.getD childpos d)) childpos
    else (heap, pos)

/-- `heapq._siftup(heap, pos)`: saves `newitem = heap[pos]`, sinks the hole
to a leaf, writes `newitem` there, and calls `_siftdown(heap, pos, hole)`. -/
def siftup {α : Type} (lt : α → α → Bool) (d : α) (heap : List α) (pos : Nat) : List α :=
  match heap.get? pos with
  | none => heap
  | some newitem =>
    let p := siftupLoop lt d heap.length heap pos
    siftdown lt d (p.1.set p.2 newitem) pos p.2

/-- `heapq.heappush`: append the item and sift it down towards the root. -/
def heappush {α : Type} (lt : α → α → Bool) (d : α) (heap : List α) (item : α) : List α :=
  siftdown lt d (heap ++ [item]) 0 heap.length

/-- `heapq.heappop`: pop the last element; if the heap is still nonempty,
save the root, move the last element to the root and sift it up. -/
def heappop {α : Type} (lt : α → α → Bool) (d : α) (heap : List α) :
    Option (α × List α) :=
  match heap.getLast? with
  | none => none
  | some lastelt =>
    match heap.dropLast with
    | [] => some (lastelt, [])
    | r0 :: rt => some (r0, siftup lt d (lastelt :: rt) 0)

/-- Repeated `heappop` until the heap is empty (fuelled). -/
def popListAux {α : Type} (lt : α → α → Bool) (d : α) : Nat → List α → List α
  | 0, _ => []
  | fuel + 1, heap =>
    match heappop lt d heap with
    | none => []
    | some (x, rest) => x :: popListAux lt d fuel rest

/-- Stable insertion used to model Python's stable `sorted`:
`a` is placed before the first element `b` with `le a b`. -/
def orderedInsertB {α : Type} (le : α → α → Bool) (a : α) : List α → List α
  | [] => [a]
  | b :: l => if le a b then a :: b :: l else b :: orderedInsertB le a l

/-- Stable sort modelling `sorted(...)`, which for a strict-weak-order
`__lt__` has a unique stable result. -/
def insertionSortB {α : Type} (le : α → α → Bool) : List α → List α
  | [] => []
  | a :: l => orderedInsertB le a (insertionSortB le l)

/-- Keys of the tracker dictionary: `(company, position)`. -/
abbrev JobKey := String × String

/-- The dictionary `self.jobs`, as an insertion-ordered association list of
arena indices (Python dicts preserve insertion order). -/
abbrev JobDict := List (JobKey × Nat)

/-- `self.jobs[k]` lookup (`None`-free: `Option`). -/
def dictGet? (m : JobDict) (k : JobKey) : Option Nat :=
  (m.find? (fun e => decide (e.1 = k))).map (fun e => e.2)

/-- `self.jobs[k] = v`: overwrite in place if present, else append. -/
def dictInsert (m : JobDict) (k : JobKey) (v : Nat) : JobDict :=
  if (dictGet? m k).isSome then m.map (fun e => if e.1 = k then (k, v) else e)
  else m ++ [(k, v)]

/-- `del self.jobs[k]`: `none` models the `KeyError` raised on an absent key. -/
def dictDel (m : JobDict) (k : JobKey) : Option JobDict :=
  if (dictGet? m k).isSome then some (m.filter (fun e => decide (e.1 ≠ k)))
  else none

/-- The `JobTracker` state.  `store` is the object arena: `job_heap` and
`jobs` hold indices into it, modelling Python references (so a status
mutation through `jobs` is visible through `job_heap`). -/
structure JobTracker where
  store : List JobApplication
  jobHeap : List Nat
  jobs : JobDict
deriving DecidableEq, Repr

/-- `__lt__` lifted to arena indices: comparing the referenced records. -/
def ltStore (store : List JobApplication) (i j : Nat) : Bool :=
  jobLt (store.getD i dfltJob) (store.getD j dfltJob)

/-- `a` sorts no later than `b`: the ordering `sorted` realises. -/
def leStore (store : List JobApplication) (i j : Nat) : Bool :=
  !(ltStore store j i)

/-- `JobTracker.__init__`. -/
def emptyTracker : JobTracker := { store := [], jobHeap := [], jobs := [] }

/-- `JobTracker.add_application`: construct the record (catching the
`ValueError`, which leaves the state untouched), push the new reference on
the heap and store it in the dictionary. -/
def addApplication (t : JobTracker) (company position deadline : String)
    (importance : Int) : JobTracker :=
  match JobApplication.make company position deadline importance with
  | Except.error _ => t
  | Except.ok job =>
    let store2 := t.store ++ [job]
    { store := store2,
      jobHeap := heappush (ltStore store2) 0 t.jobHeap t.store.length,
      jobs := dictInsert t.jobs (company, position) t.store.length }

/-- Observable outcome of `process_next_application`: `empty` is the
`None` return on an empty heap, `ok` the normal return of the popped record,
`keyError` the uncaught `KeyError` of `del self.jobs[...]` (the heap pop and
the status mutation have already happened when it is raised). -/
inductive PopResult where
  | empty
  | ok (id : Nat)
  | keyError (id : Nat)
deriving DecidableEq, Repr

/-- `job.status = "Processed"`. -/
def markProcessed (r : JobApplication) : JobApplication := { r with status := "Processed" }

/-- `JobTracker.process_next_application` (lines 61-75). -/
def processNext (t : JobTracker) : JobTracker × PopResult :=
  match heappop (ltStore t.store) 0 t.jobHeap with
  | none => (t, PopResult.empty)
  | some (id, rest) =>
    let job := t.store.getD id dfltJob
    let store2 := t.store.set id (markProcessed job)
    match dictDel t.jobs (job.company, job.position) with
    | some jobs2 => ({ store := store2, jobHeap := rest, jobs := jobs2 }, PopResult.ok id)
    | none => ({ store := store2, jobHeap := rest, jobs := t.jobs }, PopResult.keyError id)

/-- `JobTracker.view_pending_applications`: `none` is the
"No pending applications." signal; otherwise the references are listed in
`sorted(self.job_heap)` order without mutating the heap. -/
def viewPending (t : JobTracker) : Option (List Nat) :=
  if t.jobHeap.isEmpty then none
  else some (insertionSortB (leStore t.store) t.jobHeap)

/-- Failure modes of `update_status` (reported by `print` in the source). -/
inductive UpdateError where
  | notFound
  | invalidStatus
deriving DecidableEq, Repr

/-- `JobTracker.update_status` (lines 90-103): key lookup first, then status
validation, then in-place mutation of the record's status. -/
def updateStatus (t : JobTracker) (company position newStatus : String) :
    JobTracker × Option UpdateError :=
  match dictGet? t.jobs (company, position) with
  | none => (t, some UpdateError.notFound)
  | some id =>
    if VALID_STATUSES.contains newStatus then
      let rec2 := { t.store.getD id dfltJob with status := newStatus }
      ({ t with store := t.store.set id rec2 }, none)
    else (t, some UpdateError.invalidStatus)

/-- Caller-visible operations for operation-sequence claims. -/
inductive Op where
  | add (company position deadline : String) (importance : Int)
  | processNext
deriving DecidableEq, Repr

/-- One operation step (the result of a pop is discarded by the driver). -/
def runOp (t : JobTracker) : Op → JobTracker
  | Op.add c p dl imp => addApplication t c p dl imp
  | Op.processNext => (processNext t).1

/-- Run a sequence of operations from a given state. -/
def runOps (t : JobTracker) (ops : List Op) : JobTracker := ops.foldl runOp t

/-- The (company, position) pairs of all `add` calls of a sequence. -/
def addKeys (ops : List Op) : List JobKey :=
  ops.filterMap (fun o => match o with
    | Op.add c p _ _ => some (c, p)
    | Op.processNext => none)

/-- Ids returned by successive `process_next_application` calls, stopping at
the empty signal or at an uncaught `KeyError` (fuelled). -/
def processAll : Nat → JobTracker → List Nat
  | 0, _ => []
  | fuel + 1, t =>
    match processNext t with
    | (_, PopResult.empty) => []
    | (t2, PopResult.ok id) => id :: processAll fuel t2
    | (_, PopResult.keyError _) => []

/-- Ids returned by draining the tracker with `process_next_application`. -/
def returnedIds (t : JobTracker) : List Nat := processAll t.jobHeap.length t

/-- The identity key of a record. -/
def keyOf (r : JobApplication) : JobKey := (r.company, r.position)

/-- The binary-heap shape invariant of CPython's `heapq`: no element is
`<` its parent. -/
def HeapInv {α : Type} (lt : α → α → Bool) (d : α) (l : List α) : Prop :=
  ∀ c, c < l.length → 0 < c → lt (l.getD c d) (l.getD (parentIdx c) d) = false

/-- Invariant of the bubble-up loop: the heap shape holds away from the hole,
the hole's children are bounded by the hole's parent and dominate `x`. -/
def SdInv {α : Type} (lt : α → α → Bool) (d : α) (l : List α) (hole : Nat) (x : α) : Prop :=
  (∀ c, 0 < c → c < l.length → c ≠ hole →
    lt (l.getD c d) (l.getD (parentIdx c) d) = false) ∧
  (0 < hole → ∀ c, 0 < c → c < l.length → parentIdx c = hole →
    lt (l.getD c d) (l.getD (parentIdx hole) d) = false) ∧
  (∀ c, 0 < c → c < l.length → parentIdx c = hole →
    lt (l.getD c d) x = false)

/-- Invariant of the sink loop: heap shape away from edges incident to the
hole, and the hole's children bounded by the hole's parent. -/
def SuInv {α : Type} (lt : α → α → Bool) (d : α) (l : List α) (hole : Nat) : Prop :=
  (∀ c, 0 < c → c < l.length → c ≠ hole → parentIdx c ≠ hole →
    lt (l.getD c d) (l.getD (parentIdx c) d) = false) ∧
  (0 < hole → ∀ c, 0 < c → c < l.length → parentIdx c = hole →
    lt (l.getD c d) (l.getD (parentIdx hole) d) = false)

/-- Well-formedness of reachable tracker states: the heap shape holds, heap
ids are in-range distinct arena indices with pairwise distinct record keys,
and the dictionary and heap mirror each other (`index`/`queue` consistency). -/
def GoodState (t : JobTracker) : Prop :=
  HeapInv (ltStore t.store) 0 t.jobHeap ∧
  (∀ id ∈ t.jobHeap, id < t.store.length) ∧
  t.jobHeap.Nodup ∧
  (t.jobHeap.map (fun id => keyOf (t.store.getD id dfltJob))).Nodup ∧
  (∀ e ∈ t.jobs, e.2 ∈ t.jobHeap ∧ keyOf (t.store.getD e.2 dfltJob) = e.1) ∧
  (∀ id ∈ t.jobHeap, dictGet? t.jobs (keyOf (t.store.getD id dfltJob)) = some id) ∧
  (t.jobs.map (fun e => e.1)).Nodup

instance {α : Type} (lt : α → α → Bool) (d : α) (l : List α) :
    Decidable (HeapInv lt d l) := by
  unfold HeapInv; infer_instance

instance (t : JobTracker) : Decidable (GoodState t) := by
  unfold GoodState; infer_instance

/-- The worked example of the specification (§8). -/
def exTracker : JobTracker :=
  runOps emptyTracker
    [Op.add "Acme" "Eng" "2025-06-01" 5,
     Op.add "Globex" "PM" "2025-05-01" 5,
     Op.add "Initech" "Ops" "2025-06-01" 8]

/-- A tracker with a duplicate (company, position) pair: the second `add`
overwrote the index entry while both records sit in the heap. -/
def tDup : JobTracker :=
  runOps emptyTracker
    [Op.add "Acme" "Eng" "2025-06-01" 5,
     Op.add "Acme" "Eng" "2025-07-01" 3]

/-- Concrete records used to exercise the comparator. -/
def jobA : JobApplication :=
  { company := "A", position := "a", deadline := ⟨2025, 1, 1⟩,
    importance := 9, status := "Pending" }

def jobB : JobApplication :=
  { company := "B", position := "b", deadline := ⟨2025, 3, 1⟩,
    importance := 5, status := "Pending" }

def jobC : JobApplication :=
  { company := "C", position := "c", deadline := ⟨2025, 4, 1⟩,
    importance := 5, status := "Pending" }

/-- An operation sequence with pairwise-distinct (company, position) adds,
interleaving adds and pops. -/
def exOps : List Op :=
  [Op.add "Acme" "Eng" "2025-06-01" 5,
   Op.add "Globex" "PM" "2025-05-01" 5,
   Op.processNext,
   Op.add "Initech" "Ops" "2025-06-01" 8,
   Op.add "Umbrella" "QA" "bad-date" 2,
   Op.processNext]

/-! ### Comparator algebra -/

theorem jobLt_iff (a b : JobApplication) : jobLt a b = true ↔
    (b.importance < a.importance ∨ (a.importance = b.importance ∧
      (a.deadline.year < b.deadline.year ∨ (a.deadline.year = b.deadline.year ∧
        (a.deadline.month < b.deadline.month ∨ (a.deadline.month = b.deadline.month ∧
          a.deadline.day < b.deadline.day)))))) := by
  by_cases h : a.importance = b.importance <;>
    simp [jobLt, h, dateLt, decide_eq_true_eq] <;> omega

theorem jobLt_false_iff (a b : JobApplication) : jobLt a b = false ↔
    ¬ (b.importance < a.importance ∨ (a.importance = b.importance ∧
      (a.deadline.year < b.deadline.year ∨ (a.deadline.year = b.deadline.year ∧
        (a.deadline.month < b.deadline.month ∨ (a.deadline.month = b.deadline.month ∧
          a.deadline.day < b.deadline.day)))))) := by
  rw [← jobLt_iff]
  simp

theorem jobLt_irrefl (a : JobApplication) : jobLt a a = false := by
  rw [jobLt_false_iff]
  omega

theorem jobLt_asymm (a b : JobApplication) (h : jobLt a b = true) : jobLt b a = false := by
  rw [jobLt_iff] at h
  rw [jobLt_false_iff]
  omega

theorem jobLt_le_trans (a b c : JobApplication) (h1 : jobLt b a = false)
    (h2 : jobLt c b = false) : jobLt c a = false := by
  rw [jobLt_false_iff] at h1 h2
  rw [jobLt_false_iff]
  omega

theorem jobLt_trans (a b c : JobApplication) (h1 : jobLt a b = true)
    (h2 : jobLt b c = true) : jobLt a c = true := by
  rw [jobLt_iff] at h1 h2
  rw [jobLt_iff]
  omega

theorem ltStore_irrefl (s : List JobApplication) (i : Nat) : ltStore s i i = false :=
  jobLt_irrefl _

theorem ltStore_asymm (s : List JobApplication) (i j : Nat) (h : ltStore s i j = true) :
    ltStore s j i = false :=
  jobLt_asymm _ _ h

theorem ltStore_le_trans (s : List JobApplication) (i j k : Nat)
    (h1 : ltStore s j i = false) (h2 : ltStore s k j = false) : ltStore s k i = false :=
  jobLt_le_trans _ _ _ h1 h2

/-! ### `List.getD` / `List.set` index kit -/

theorem getD_eq_get? {α : Type} (l : List α) (n : Nat) (d : α) :
    l.getD n d = (l.get? n).getD d := rfl

theorem getD_set_self {α : Type} (l : List α) (i : Nat) (a d : α) (h : i < l.length) :
    (l.set i a).getD i d = a := by
  rw [getD_eq_get?, List.get?_set_eq_of_lt a h]
  rfl

theorem getD_set_ne {α : Type} (l : List α) (i j : Nat) (a d : α) (h : i ≠ j) :
    (l.set i a).getD j d = l.getD j d := by
  rw [getD_eq_get?, List.get?_set_ne a l h, getD_eq_get?]

theorem getD_append_left {α : Type} (l l2 : List α) (i : Nat) (d : α) (h : i < l.length) :
    (l ++ l2).getD i d = l.getD i d := by
  rw [getD_eq_get?, List.get?_append h, getD_eq_get?]

theorem getD_append_len {α : Type} (l : List α) (x : α) (d : α) :
    (l ++ [x]).getD l.length d = x := by
  rw [getD_eq_get?, List.get?_concat_length]
  rfl

theorem getD_of_len_le {α : Type} (l : List α) (i : Nat) (d : α) (h : l.length ≤ i) :
    l.getD i d = d := by
  rw [getD_eq_get?, List.get?_eq_none.2 h]
  rfl

theorem getD_mem {α : Type} (l : List α) (i : Nat) (d : α) (h : i < l.length) :
    l.getD i d ∈ l := by
  rw [getD_eq_get?]
  cases hg : l.get? i with
  | none => exact absurd (List.get?_eq_none.1 hg) (by omega)
  | some a => exact List.get?_mem hg

theorem mem_iff_getD {α : Type} (l : List α) (a d : α) :
    a ∈ l ↔ ∃ i, i < l.length ∧ l.getD i d = a := by
  constructor
  · intro h
    obtain ⟨n, hn⟩ := List.mem_iff_get?.1 h
    refine ⟨n, ?_, ?_⟩
    · by_contra hc
      rw [List.get?_eq_none.2 (by omega)] at hn
      cases hn
    · rw [getD_eq_get?, hn]
      rfl
  · rintro ⟨i, hi, rfl⟩
    exact getD_mem l i d hi

theorem set_getD_self {α : Type} (l : List α) (i : Nat) (d : α) (h : i < l.length) :
    l.set i (l.getD i d) = l := by
  apply List.ext_get?
  intro n
  rcases eq_or_ne i n with rfl | hne
  · rw [List.get?_set_eq_of_lt _ h, getD_eq_get?]
    cases hg : l.get? i with
    | none => exact absurd (List.get?_eq_none.1 hg) (by omega)
    | some a => rfl
  · exact List.get?_set_ne _ l hne

/-! ### Permutation kit for in-place array updates -/

theorem cons_set_perm {α : Type} (t : List α) : ∀ (k : Nat) (a b : α), k < t.length →
    (a :: t.set k b).Perm (b :: t.set k a) := by
  induction t with
  | nil => intro k a b h; simp at h
  | cons x t2 ih =>
    intro k a b h
    cases k with
    | zero =>
      simpa [List.set_cons_zero] using List.Perm.swap b a t2
    | succ j =>
      simp only [List.set_cons_succ]
      exact ((List.Perm.swap x a _).trans
        (List.Perm.cons x (ih j a b (by simpa using h)))).trans (List.Perm.swap b x _)

theorem set_set_perm {α : Type} (l : List α) : ∀ (i j : Nat) (a b : α), i ≠ j →
    i < l.length → j < l.length → ((l.set i a).set j b).Perm ((l.set i b).set j a) := by
  induction l with
  | nil => intro i j a b hne hi _; simp at hi
  | cons x t ih =>
    intro i j a b hne hi hj
    cases i with
    | zero =>
      cases j with
      | zero => exact absurd rfl hne
      | succ j2 =>
        simp only [List.set_cons_zero, List.set_cons_succ]
        exact cons_set_perm t j2 a b (by simpa using hj)
    | succ i2 =>
      cases j with
      | zero =>
        simp only [List.set_cons_zero, List.set_cons_succ]
        exact cons_set_perm t i2 b a (by simpa using hi)
      | succ j2 =>
        simp only [List.set_cons_succ]
        exact List.Perm.cons x (ih i2 j2 a b (by omega) (by simpa using hi) (by simpa using hj))

/-! ### Lengths and permutations of the sift loops -/

theorem length_siftdownLoop {α : Type} (lt : α → α → Bool) (d x : α) :
    ∀ (fuel : Nat) (l : List α) (s pos : Nat),
    (siftdownLoop lt d x fuel l s pos).length = l.length := by
  intro fuel
  induction fuel with
  | zero => intro l s pos; simp [siftdownLoop]
  | succ fuel ih =>
    intro l s pos
    simp only [siftdownLoop]
    split
    · split
      · rw [ih]
        simp
      · simp
    · simp

theorem siftdownLoop_perm {α : Type} (lt : α → α → Bool) (d x : α) :
    ∀ (fuel : Nat) (l : List α) (s pos : Nat), pos < l.length →
    (siftdownLoop lt d x fuel l s pos).Perm (l.set pos x) := by
  intro fuel
  induction fuel with
  | zero => intro l s pos _; simp [siftdownLoop]
  | succ fuel ih =>
    intro l s pos hpos
    simp only [siftdownLoop]
    split
    · rename_i hs
      split
      · rename_i hlt
        have hp : parentIdx pos < pos := by simp only [parentIdx]; omega
        have h1 := ih (l.set pos (l.getD (parentIdx pos) d)) s (parentIdx pos)
          (by simp; omega)
        refine h1.trans ?_
        refine (set_set_perm l pos (parentIdx pos) (l.getD (parentIdx pos) d) x
          (by omega) hpos (by omega)).trans ?_
        rw [← getD_set_ne l pos (parentIdx pos) x d (by omega),
          set_getD_self (l.set pos x) (parentIdx pos) d (by simp; omega)]
      · exact List.Perm.refl _
    · exact List.Perm.refl _

theorem length_siftupLoop {α : Type} (lt : α → α → Bool) (d : α) :
    ∀ (fuel : Nat) (l : List α) (pos : Nat),
    (siftupLoop lt d fuel l pos).1.length = l.length := by
  intro fuel
  induction fuel with
  | zero => intro l pos; rfl
  | succ fuel ih =>
    intro l pos
    simp only [siftupLoop]
    split
    · rw [ih]
      simp
    · rfl

theorem siftupLoop_set_perm {α : Type} (lt : α → α → Bool) (d : α) :
    ∀ (fuel : Nat) (l : List α) (pos : Nat) (x : α), pos < l.length →
    ((siftupLoop lt d fuel l pos).1.set (siftupLoop lt d fuel l pos).2 x).Perm
      (l.set pos x) := by
  intro fuel
  induction fuel with
  | zero => intro l pos x _; exact List.Perm.refl _
  | succ fuel ih =>
    intro l pos x hpos
    simp only [siftupLoop]
    split
    · rename_i hc
      set childpos := if 2 * pos + 2 < l.length ∧
          lt (l.getD (2 * pos + 1) d) (l.getD (2 * pos + 2) d) = false
        then 2 * pos + 2 else 2 * pos + 1 with hcp
      have hcl : childpos < l.length := by
        rw [hcp]; split <;> omega
      have hpc : pos < childpos := by
        rw [hcp]; split <;> omega
      have h1 := ih (l.set pos (l.getD childpos d)) childpos x (by simp; omega)
      refine h1.trans ?_
      refine (set_set_perm l pos childpos (l.getD childpos d) x
        (by omega) hpos hcl).trans ?_
      rw [← getD_set_ne l pos childpos x d (by omega),
        set_getD_self (l.set pos x) childpos d (by simp; omega)]
    · exact List.Perm.refl _

theorem siftupLoop_exit {α : Type} (lt : α → α → Bool) (d : α) :
    ∀ (fuel : Nat) (l : List α) (pos : Nat), pos < l.length → l.length - pos ≤ fuel →
    (siftupLoop lt d fuel l pos).2 < l.length ∧
      l.length ≤ 2 * (siftupLoop lt d fuel l pos).2 + 1 := by
  intro fuel
  induction fuel with
  | zero => intro l pos h1 h2; omega
  | succ fuel ih =>
    intro l pos hpos hfuel
    simp only [siftupLoop]
    split
    · rename_i hc
      set childpos := if 2 * pos + 2 < l.length ∧
          lt (l.getD (2 * pos + 1) d) (l.getD (2 * pos + 2) d) = false
        then 2 * pos + 2 else 2 * pos + 1 with hcp
      have hcl : childpos < l.length := by
        rw [hcp]; split <;> omega
      have hpc : pos < childpos := by
        rw [hcp]; split <;> omega
      have := ih (l.set pos (l.getD childpos d)) childpos (by simp; omega) (by simp; omega)
      simpa using this
    · rename_i hc
      constructor
      · exact hpos
      · omega

/-! ### Heap-shape invariant: bubble-up loop -/

theorem sdInv_exit {α : Type} (lt : α → α → Bool) (d : α) (l : List α) (pos : Nat) (x : α)
    (hpos : pos < l.length) (hinv : SdInv lt d l pos x)
    (hstop : pos = 0 ∨ lt x (l.getD (parentIdx pos) d) = false) :
    HeapInv lt d (l.set pos x) := by
  intro c hc hc0
  rw [List.length_set] at hc
  have hplt : parentIdx c < c := by simp only [parentIdx]; omega
  by_cases hcpos : c = pos
  · subst hcpos
    have hp0 : lt x (l.getD (parentIdx c) d) = false := by
      rcases hstop with h | h
      · omega
      · exact h
    rw [getD_set_self l c x d hpos, getD_set_ne l c (parentIdx c) x d (by omega)]
    exact hp0
  · rw [getD_set_ne l pos c x d (fun e => hcpos e.symm)]
    by_cases hpc : parentIdx c = pos
    · rw [hpc, getD_set_self l pos x d hpos]
      exact hinv.2.2 c hc0 hc hpc
    · rw [getD_set_ne l pos (parentIdx c) x d (fun e => hpc e.symm)]
      exact hinv.1 c hc0 hc hcpos

theorem sdInv_step {α : Type} (lt : α → α → Bool) (d : α)
    (hirr : ∀ a, lt a a = false)
    (hasym : ∀ a b, lt a b = true → lt b a = false)
    (hletrans : ∀ a b c, lt b a = false → lt c b = false → lt c a = false)
    (l : List α) (pos : Nat) (x : α)
    (hpos : pos < l.length) (h0 : 0 < pos) (hinv : SdInv lt d l pos x)
    (hlt : lt x (l.getD (parentIdx pos) d) = true) :
    SdInv lt d (l.set pos (l.getD (parentIdx pos) d)) (parentIdx pos) x := by
  set p := parentIdx pos with hpdef
  have hppos : p < pos := by simp only [hpdef, parentIdx]; omega
  have hplen : p < l.length := by omega
  refine ⟨?_, ?_, ?_⟩
  · -- heap shape away from the new hole p
    intro c hc0 hc hcp
    rw [List.length_set] at hc
    by_cases hcpos : c = pos
    · subst hcpos
      rw [getD_set_self l c (l.getD p d) d hpos]
      rw [show parentIdx c = p from rfl]
      rw [getD_set_ne l c p (l.getD p d) d (by omega)]
      exact hirr _
    · rw [getD_set_ne l pos c (l.getD p d) d (fun e => hcpos e.symm)]
      by_cases hpc : parentIdx c = pos
      · rw [hpc, getD_set_self l pos (l.getD p d) d hpos]
        exact hinv.2.1 h0 c hc0 hc hpc
      · rw [getD_set_ne l pos (parentIdx c) (l.getD p d) d (fun e => hpc e.symm)]
        exact hinv.1 c hc0 hc hcpos
  · -- children of the new hole are dominated by its parent
    intro hp0 c hc0 hc hpc
    rw [List.length_set] at hc
    have hppne : parentIdx p ≠ pos := by
      have : parentIdx p < p := by simp only [parentIdx]; omega
      omega
    rw [getD_set_ne l pos (parentIdx p) (l.getD p d) d (fun e => hppne e.symm)]
    have hinvp : lt (l.getD p d) (l.getD (parentIdx p) d) = false :=
      hinv.1 p hp0 hplen (by omega)
    by_cases hcpos : c = pos
    · subst hcpos
      rw [getD_set_self l c (l.getD p d) d hpos]
      exact hinvp
    · rw [getD_set_ne l pos c (l.getD p d) d (fun e => hcpos e.symm)]
      have hinvc : lt (l.getD c d) (l.getD p d) = false := by
        have := hinv.1 c hc0 hc hcpos
        rwa [hpc] at this
      exact hletrans _ _ _ hinvp hinvc
  · -- children of the new hole dominate the pending item
    intro c hc0 hc hpc
    rw [List.length_set] at hc
    by_cases hcpos : c = pos
    · subst hcpos
      rw [getD_set_self l c (l.getD p d) d hpos]
      exact hasym _ _ hlt
    · rw [getD_set_ne l pos c (l.getD p d) d (fun e => hcpos e.symm)]
      have hxp : lt (l.getD p d) x = false := hasym _ _ hlt
      have hinvc : lt (l.getD c d) (l.getD p d) = false := by
        have := hinv.1 c hc0 hc hcpos
        rwa [hpc] at this
      exact hletrans _ _ _ hxp hinvc

theorem siftdownLoop_heapInv {α : Type} (lt : α → α → Bool) (d : α)
    (hirr : ∀ a, lt a a = false)
    (hasym : ∀ a b, lt a b = true → lt b a = false)
    (hletrans : ∀ a b c, lt b a = false → lt c b = false → lt c a = false) :
    ∀ (fuel : Nat) (l : List α) (pos : Nat) (x : α), pos < l.length → pos ≤ fuel →
    SdInv lt d l pos x → HeapInv lt d (siftdownLoop lt d x fuel l 0 pos) := by
  intro fuel
  induction fuel with
  | zero =>
    intro l pos x hpos hfuel hinv
    have : pos = 0 := by omega
    subst this
    exact sdInv_exit lt d l 0 x hpos hinv (Or.inl rfl)
  | succ fuel ih =>
    intro l pos x hpos hfuel hinv
    simp only [siftdownLoop]
    split
    · rename_i hs
      split
      · rename_i hlt
        refine ih (l.set pos (l.getD (parentIdx pos) d)) (parentIdx pos) x ?_ ?_ ?_
        · rw [List.length_set]
          have : parentIdx pos < pos := by simp only [parentIdx]; omega
          omega
        · have : parentIdx pos < pos := by simp only [parentIdx]; omega
          omega
        · exact sdInv_step lt d hirr hasym hletrans l pos x hpos hs hinv hlt
      · rename_i hlt
        exact sdInv_exit lt d l pos x hpos hinv (Or.inr (by simpa using hlt))
    · rename_i hs
      have : pos = 0 := by omega
      subst this
      exact sdInv_exit lt d l 0 x hpos hinv (Or.inl rfl)

/-! ### Heap-shape invariant: sink loop -/

theorem suInv_step {α : Type} (lt : α → α → Bool) (d : α)
    (hasym : ∀ a b, lt a b = true → lt b a = false)
    (l : List α) (pos : Nat)
    (hpos : pos < l.length) (hinv : SuInv lt d l pos) (hc : 2 * pos + 1 < l.length)
    (childpos : Nat)
    (hcp : childpos = if 2 * pos + 2 < l.length ∧
        lt (l.getD (2 * pos + 1) d) (l.getD (2 * pos + 2) d) = false
      then 2 * pos + 2 else 2 * pos + 1) :
    SuInv lt d (l.set pos (l.getD childpos d)) childpos := by
  have hcl : childpos < l.length := by rw [hcp]; split <;> omega
  have hpc : pos < childpos := by rw [hcp]; split <;> omega
  have hpar : parentIdx childpos = pos := by
    simp only [parentIdx]
    rw [hcp]; split <;> omega
  have hsib : ∀ s, 0 < s → s < l.length → parentIdx s = pos → s ≠ childpos →
      lt (l.getD s d) (l.getD childpos d) = false := by
    intro s hs0 hsl hspar hsne
    have hs2 : s = 2 * pos + 1 ∨ s = 2 * pos + 2 := by
      simp only [parentIdx] at hspar
      omega
    by_cases hcond : 2 * pos + 2 < l.length ∧
        lt (l.getD (2 * pos + 1) d) (l.getD (2 * pos + 2) d) = false
    · have hceq : childpos = 2 * pos + 2 := by rw [hcp, if_pos hcond]
      have hseq : s = 2 * pos + 1 := by omega
      rw [hceq, hseq]
      exact hcond.2
    · have hceq : childpos = 2 * pos + 1 := by rw [hcp, if_neg hcond]
      have hseq : s = 2 * pos + 2 := by omega
      have h2l : 2 * pos + 2 < l.length := by omega
      have hnf : ¬ lt (l.getD (2 * pos + 1) d) (l.getD (2 * pos + 2) d) = false := by
        intro hf
        exact hcond ⟨h2l, hf⟩
      have htrue : lt (l.getD (2 * pos + 1) d) (l.getD (2 * pos + 2) d) = true := by
        cases hb : lt (l.getD (2 * pos + 1) d) (l.getD (2 * pos + 2) d)
        · exact absurd hb hnf
        · rfl
      rw [hceq, hseq]
      exact hasym _ _ htrue
  constructor
  · intro c hc0 hcle hcne hcpar
    rw [List.length_set] at hcle
    by_cases hcpos : c = pos
    · rw [hcpos, getD_set_self l pos (l.getD childpos d) d hpos,
        getD_set_ne l pos (parentIdx pos) (l.getD childpos d) d
          (by simp only [parentIdx]; omega)]
      have hpos0 : 0 < pos := by omega
      have := hinv.2 hpos0 childpos (by omega) hcl hpar
      exact this
    · rw [getD_set_ne l pos c (l.getD childpos d) d (fun e => hcpos e.symm)]
      by_cases hpc2 : parentIdx c = pos
      · rw [hpc2, getD_set_self l pos (l.getD childpos d) d hpos]
        exact hsib c hc0 hcle hpc2 hcne
      · rw [getD_set_ne l pos (parentIdx c) (l.getD childpos d) d (fun e => hpc2 e.symm)]
        exact hinv.1 c hc0 hcle hcpos hpc2
  · intro _ c hc0 hcle hcpar
    rw [List.length_set] at hcle
    have hcbig : childpos < c := by
      simp only [parentIdx] at hcpar
      omega
    rw [hpar, getD_set_ne l pos c (l.getD childpos d) d (by omega),
      getD_set_self l pos (l.getD childpos d) d hpos]
    have h1 := hinv.1 c hc0 hcle (by omega) (by rw [hcpar]; omega)
    rwa [hcpar] at h1

theorem siftupLoop_suInv {α : Type} (lt : α → α → Bool) (d : α)
    (hasym : ∀ a b, lt a b = true → lt b a = false) :
    ∀ (fuel : Nat) (l : List α) (pos : Nat), pos < l.length → SuInv lt d l pos →
    SuInv lt d (siftupLoop lt d fuel l pos).1 (siftupLoop lt d fuel l pos).2 := by
  intro fuel
  induction fuel with
  | zero => intro l pos _ hinv; exact hinv
  | succ fuel ih =>
    intro l pos hpos hinv
    simp only [siftupLoop]
    split
    · rename_i hc
      set childpos := if 2 * pos + 2 < l.length ∧
          lt (l.getD (2 * pos + 1) d) (l.getD (2 * pos + 2) d) = false
        then 2 * pos + 2 else 2 * pos + 1 with hcp
      have hcl : childpos < l.length := by rw [hcp]; split <;> omega
      exact ih (l.set pos (l.getD childpos d)) childpos (by simp; omega)
        (suInv_step lt d hasym l pos hpos hinv hc childpos hcp)
    · exact hinv

theorem suInv_exit {α : Type} (lt : α → α → Bool) (d : α) (l : List α) (fp : Nat) (x : α)
    (hfp : fp < l.length) (hleaf : l.length ≤ 2 * fp + 1) (hinv : SuInv lt d l fp) :
    SdInv lt d (l.set fp x) fp x := by
  refine ⟨?_, ?_, ?_⟩
  · intro c hc0 hcle hcne
    rw [List.length_set] at hcle
    have hpne : parentIdx c ≠ fp := by
      intro he
      have : c = 2 * fp + 1 ∨ c = 2 * fp + 2 := by
        simp only [parentIdx] at he
        omega
      omega
    rw [getD_set_ne l fp c x d (fun e => hcne e.symm),
      getD_set_ne l fp (parentIdx c) x d (fun e => hpne e.symm)]
    exact hinv.1 c hc0 hcle hcne hpne
  · intro _ c hc0 hcle hcpar
    rw [List.length_set] at hcle
    have : c = 2 * fp + 1 ∨ c = 2 * fp + 2 := by
      simp only [parentIdx] at hcpar
      omega
    omega
  · intro c hc0 hcle hcpar
    rw [List.length_set] at hcle
    have : c = 2 * fp + 1 ∨ c = 2 * fp + 2 := by
      simp only [parentIdx] at hcpar
      omega
    omega

/-! ### Top-level heap operations -/

theorem heapInv_root_min {α : Type} (lt : α → α → Bool) (d : α)
    (hirr : ∀ a, lt a a = false)
    (hletrans : ∀ a b c, lt b a = false → lt c b = false → lt c a = false)
    (l : List α) (h : HeapInv lt d l) :
    ∀ i, i < l.length → lt (l.getD i d) (l.getD 0 d) = false := by
  intro i
  induction i using Nat.strong_induction_on with
  | _ i ih =>
    intro hi
    rcases Nat.eq_zero_or_pos i with rfl | hpos
    · exact hirr _
    · have hp : parentIdx i < i := by simp only [parentIdx]; omega
      exact hletrans _ _ _ (ih (parentIdx i) hp (by omega)) (h i hi hpos)

theorem heapInv_min_all {α : Type} (lt : α → α → Bool) (d : α)
    (hirr : ∀ a, lt a a = false)
    (hletrans : ∀ a b c, lt b a = false → lt c b = false → lt c a = false)
    (l : List α) (h : HeapInv lt d l) :
    ∀ y ∈ l, lt y (l.getD 0 d) = false := by
  intro y hy
  obtain ⟨i, hi, rfl⟩ := (mem_iff_getD l y d).1 hy
  exact heapInv_root_min lt d hirr hletrans l h i hi

theorem heapInv_congr {α : Type} (lt1 lt2 : α → α → Bool) (d : α) (l : List α)
    (hco : ∀ x ∈ l, ∀ y ∈ l, lt1 x y = lt2 x y) (h : HeapInv lt1 d l) :
    HeapInv lt2 d l := by
  intro c hc hc0
  have hpl : parentIdx c < l.length := by
    have : parentIdx c < c := by simp only [parentIdx]; omega
    omega
  rw [← hco _ (getD_mem l c d hc) _ (getD_mem l (parentIdx c) d hpl)]
  exact h c hc hc0

theorem length_heappush {α : Type} (lt : α → α → Bool) (d : α) (l : List α) (x : α) :
    (heappush lt d l x).length = l.length + 1 := by
  simp only [heappush, siftdown, List.get?_concat_length]
  rw [length_siftdownLoop]
  simp

theorem heappush_perm {α : Type} (lt : α → α → Bool) (d : α) (l : List α) (x : α) :
    List.Perm (heappush lt d l x) (l ++ [x]) := by
  simp only [heappush, siftdown, List.get?_concat_length]
  have he : (l ++ [x]).set l.length x = l ++ [x] := by
    have h2 := set_getD_self (l ++ [x]) l.length d (by simp)
    rwa [getD_append_len l x d] at h2
  have hp := siftdownLoop_perm lt d x l.length (l ++ [x]) 0 l.length (by simp)
  rwa [he] at hp

theorem heappush_heapInv {α : Type} (lt : α → α → Bool) (d : α)
    (hirr : ∀ a, lt a a = false)
    (hasym : ∀ a b, lt a b = true → lt b a = false)
    (hletrans : ∀ a b c, lt b a = false → lt c b = false → lt c a = false)
    (l : List α) (x : α) (h : HeapInv lt d l) : HeapInv lt d (heappush lt d l x) := by
  simp only [heappush, siftdown, List.get?_concat_length]
  apply siftdownLoop_heapInv lt d hirr hasym hletrans l.length (l ++ [x]) l.length x
    (by simp) (Nat.le_refl _)
  refine ⟨?_, ?_, ?_⟩
  · intro c hc0 hcl hcne
    have hcl2 : c < l.length := by
      rw [List.length_append] at hcl
      simp at hcl
      omega
    have hpl : parentIdx c < l.length := by
      have : parentIdx c < c := by simp only [parentIdx]; omega
      omega
    rw [getD_append_left l [x] c d hcl2, getD_append_left l [x] (parentIdx c) d hpl]
    exact h c hcl2 hc0
  · intro _ c hc0 hcl hpc
    simp only [parentIdx] at hpc
    rw [List.length_append] at hcl
    simp at hcl
    omega
  · intro c hc0 hcl hpc
    simp only [parentIdx] at hpc
    rw [List.length_append] at hcl
    simp at hcl
    omega

theorem siftup_perm {α : Type} (lt : α → α → Bool) (d : α) (x : α) (t : List α) :
    List.Perm (siftup lt d (x :: t) 0) (x :: t) := by
  simp only [siftup, List.get?_cons_zero]
  have hex := siftupLoop_exit lt d (x :: t).length (x :: t) 0 (by simp) (by simp)
  have hlen := length_siftupLoop lt d (x :: t).length (x :: t) 0
  set p := siftupLoop lt d (x :: t).length (x :: t) 0 with hpd
  have hfp : p.2 < p.1.length := by rw [hlen]; exact hex.1
  simp only [siftdown]
  rw [List.get?_set_eq_of_lt x hfp]
  refine ((siftdownLoop_perm lt d x p.2 (p.1.set p.2 x) 0 p.2 (by simp [hfp])).trans ?_).trans
    (siftupLoop_set_perm lt d (x :: t).length (x :: t) 0 x (by simp))
  rw [List.set_set]

theorem siftup_heapInv {α : Type} (lt : α → α → Bool) (d : α)
    (hirr : ∀ a, lt a a = false)
    (hasym : ∀ a b, lt a b = true → lt b a = false)
    (hletrans : ∀ a b c, lt b a = false → lt c b = false → lt c a = false)
    (x : α) (t : List α) (hsu : SuInv lt d (x :: t) 0) :
    HeapInv lt d (siftup lt d (x :: t) 0) := by
  simp only [siftup, List.get?_cons_zero]
  have hex := siftupLoop_exit lt d (x :: t).length (x :: t) 0 (by simp) (by simp)
  have hlen := length_siftupLoop lt d (x :: t).length (x :: t) 0
  have hsu2 := siftupLoop_suInv lt d hasym (x :: t).length (x :: t) 0 (by simp) hsu
  set p := siftupLoop lt d (x :: t).length (x :: t) 0 with hpd
  have hfp : p.2 < p.1.length := by rw [hlen]; exact hex.1
  simp only [siftdown]
  rw [List.get?_set_eq_of_lt x hfp]
  apply siftdownLoop_heapInv lt d hirr hasym hletrans p.2 (p.1.set p.2 x) p.2 x
    (by simp [hfp]) (Nat.le_refl _)
  exact suInv_exit lt d p.1 p.2 x hfp (by omega) hsu2

theorem heappop_eq_none_iff {α : Type} (lt : α → α → Bool) (d : α) (l : List α) :
    heappop lt d l = none ↔ l = [] := by
  cases l with
  | nil => simp [heappop]
  | cons x t =>
    simp only [heappop]
    rw [List.getLast?_eq_getLast (x :: t) (by simp)]
    cases hd : (x :: t).dropLast <;> simp

theorem heappop_spec {α : Type} (lt : α → α → Bool) (d : α)
    (hirr : ∀ a, lt a a = false)
    (hasym : ∀ a b, lt a b = true → lt b a = false)
    (hletrans : ∀ a b c, lt b a = false → lt c b = false → lt c a = false)
    (l : List α) (h : HeapInv lt d l) (x : α) (rest : List α)
    (he : heappop lt d l = some (x, rest)) :
    x = l.getD 0 d ∧ List.Perm (x :: rest) l ∧ HeapInv lt d rest := by
  have hne : l ≠ [] := by
    rintro rfl
    simp [heappop] at he
  unfold heappop at he
  cases hg : l.getLast? with
  | none =>
    rw [hg] at he
    simp at he
  | some lastelt =>
    rw [hg] at he
    have hglast : l.getLast hne = lastelt := by
      rw [List.getLast?_eq_getLast l hne] at hg
      injection hg
    have hsplit : l.dropLast ++ [lastelt] = l := by
      rw [← hglast]
      exact List.dropLast_append_getLast hne
    cases hd : l.dropLast with
    | nil =>
      rw [hd] at he
      simp only [Option.some.injEq, Prod.mk.injEq] at he
      obtain ⟨hx, hrest⟩ := he
      have hl : l = [lastelt] := by
        conv_lhs => rw [← hsplit]
        rw [hd]
        rfl
      refine ⟨?_, ?_, ?_⟩
      · rw [hl, ← hx]
        rfl
      · rw [← hrest, ← hx, hl]
      · rw [← hrest]
        intro c hc hc0
        simp at hc
    | cons r0 rt =>
      rw [hd] at he
      simp only [Option.some.injEq, Prod.mk.injEq] at he
      obtain ⟨hx, hrest⟩ := he
      have hl : l = r0 :: (rt ++ [lastelt]) := by
        conv_lhs => rw [← hsplit]
        rw [hd]
        rfl
      have hlen : l.length = rt.length + 2 := by
        rw [hl]
        simp
      have hval : ∀ j, 0 < j → j < rt.length + 1 →
          (lastelt :: rt).getD j d = l.getD j d := by
        intro j h1 h2
        obtain ⟨k, rfl⟩ : ∃ k, j = k + 1 := ⟨j - 1, by omega⟩
        rw [hl]
        simp only [List.getD_cons_succ]
        rw [getD_append_left rt [lastelt] k d (by omega)]
      have hsu : SuInv lt d (lastelt :: rt) 0 := by
        constructor
        · intro c hc0 hcl hcne hpne
          simp only [List.length_cons] at hcl
          have hp0 : 0 < parentIdx c := Nat.pos_of_ne_zero hpne
          have hplt : parentIdx c < c := by simp only [parentIdx]; omega
          rw [hval c hc0 hcl, hval (parentIdx c) hp0 (by omega)]
          exact h c (by omega) hc0
        · intro h0
          omega
      refine ⟨?_, ?_, ?_⟩
      · rw [hl, ← hx]
        rfl
      · have hperm : List.Perm rest (lastelt :: rt) := by
          rw [← hrest]
          exact siftup_perm lt d lastelt rt
        have h1 : List.Perm (x :: rest) (x :: (lastelt :: rt)) := List.Perm.cons x hperm
        have h2 : List.Perm (x :: (lastelt :: rt)) (lastelt :: x :: rt) :=
          List.Perm.swap lastelt x rt
        have h3 : List.Perm l (lastelt :: x :: rt) := by
          rw [hl, ← hx]
          have hm : List.Perm ((r0 :: rt) ++ [lastelt])
              (lastelt :: ((r0 :: rt) ++ ([] : List α))) := List.perm_middle
          simpa using hm
        exact (h1.trans h2).trans h3.symm
      · rw [← hrest]
        exact siftup_heapInv lt d hirr hasym hletrans lastelt rt hsu

theorem popListAux_spec {α : Type} (lt : α → α → Bool) (d : α)
    (hirr : ∀ a, lt a a = false)
    (hasym : ∀ a b, lt a b = true → lt b a = false)
    (hletrans : ∀ a b c, lt b a = false → lt c b = false → lt c a = false) :
    ∀ (fuel : Nat) (l : List α), HeapInv lt d l → l.length ≤ fuel →
    List.Perm (popListAux lt d fuel l) l ∧
    (popListAux lt d fuel l).Pairwise (fun a b => lt b a = false) := by
  intro fuel
  induction fuel with
  | zero =>
    intro l h hle
    have : l = [] := List.eq_nil_of_length_eq_zero (by omega)
    subst this
    exact ⟨List.Perm.refl _, List.Pairwise.nil⟩
  | succ fuel ih =>
    intro l h hle
    simp only [popListAux]
    cases he : heappop lt d l with
    | none =>
      have : l = [] := (heappop_eq_none_iff lt d l).1 he
      subst this
      exact ⟨List.Perm.refl _, List.Pairwise.nil⟩
    | some pr =>
      obtain ⟨x, rest⟩ := pr
      obtain ⟨hx, hperm, hinv⟩ := heappop_spec lt d hirr hasym hletrans l h x rest he
      have hlen : rest.length + 1 = l.length := by
        have := hperm.length_eq
        simpa using this
      obtain ⟨ihp, ihs⟩ := ih rest hinv (by omega)
      refine ⟨(List.Perm.cons x ihp).trans hperm, ?_⟩
      refine List.Pairwise.cons ?_ ihs
      intro y hy
      have hyl : y ∈ l := hperm.mem_iff.1 (List.mem_cons_of_mem x (ihp.mem_iff.1 hy))
      rw [hx]
      exact heapInv_min_all lt d hirr hletrans l h y hyl

/-! ### Dictionary lemmas -/

theorem dictGet?_cons (e : JobKey × Nat) (m : JobDict) (k : JobKey) :
    dictGet? (e :: m) k = if e.1 = k then some e.2 else dictGet? m k := by
  by_cases h : e.1 = k
  · simp only [dictGet?]
    rw [List.find?_cons_of_pos _ (by simp [h]), if_pos h]
    rfl
  · simp only [dictGet?]
    rw [List.find?_cons_of_neg _ (by simp [h]), if_neg h]

theorem dictGet?_eq_none_iff (m : JobDict) (k : JobKey) :
    dictGet? m k = none ↔ ∀ e ∈ m, e.1 ≠ k := by
  induction m with
  | nil => simp [dictGet?]
  | cons e m ih =>
    rw [dictGet?_cons]
    by_cases h : e.1 = k
    · simp [h]
    · simp [h, ih]

theorem dictGet?_mem (m : JobDict) (k : JobKey) (v : Nat) (h : dictGet? m k = some v) :
    (k, v) ∈ m := by
  induction m with
  | nil => simp [dictGet?] at h
  | cons e m ih =>
    rw [dictGet?_cons] at h
    by_cases he : e.1 = k
    · rw [if_pos he] at h
      simp only [Option.some.injEq] at h
      have : e = (k, v) := by
        cases e
        simp_all
      rw [← this]
      exact List.mem_cons_self _ _
    · rw [if_neg he] at h
      exact List.mem_cons_of_mem e (ih h)

theorem mem_dictGet? (m : JobDict) (k : JobKey) (v : Nat)
    (hnd : (m.map (fun e => e.1)).Nodup) (h : (k, v) ∈ m) : dictGet? m k = some v := by
  induction m with
  | nil => simp at h
  | cons e m ih =>
    rw [dictGet?_cons]
    simp only [List.map_cons, List.nodup_cons] at hnd
    rcases List.mem_cons.1 h with rfl | hm
    · rw [if_pos rfl]
    · by_cases he : e.1 = k
      · exfalso
        apply hnd.1
        rw [he]
        exact List.mem_map_of_mem (fun e => e.1) hm
      · rw [if_neg he]
        exact ih hnd.2 hm

theorem dictGet?_append_some (m m2 : JobDict) (k : JobKey) (v : Nat)
    (h : dictGet? m k = some v) : dictGet? (m ++ m2) k = some v := by
  induction m with
  | nil => simp [dictGet?] at h
  | cons e m ih =>
    rw [List.cons_append, dictGet?_cons]
    rw [dictGet?_cons] at h
    by_cases he : e.1 = k
    · rwa [if_pos he] at h ⊢
    · rw [if_neg he] at h ⊢
      exact ih h

theorem dictGet?_append_none (m m2 : JobDict) (k : JobKey)
    (h : dictGet? m k = none) : dictGet? (m ++ m2) k = dictGet? m2 k := by
  induction m with
  | nil => rfl
  | cons e m ih =>
    rw [List.cons_append, dictGet?_cons]
    rw [dictGet?_cons] at h
    by_cases he : e.1 = k
    · rw [if_pos he] at h
      cases h
    · rw [if_neg he] at h
      rw [if_neg he]
      exact ih h

theorem dictGet?_filter_ne (m : JobDict) (k0 k : JobKey) (hne : k ≠ k0) :
    dictGet? (m.filter (fun e => decide (e.1 ≠ k0))) k = dictGet? m k := by
  induction m with
  | nil => rfl
  | cons e m ih =>
    by_cases he : e.1 = k0
    · rw [List.filter_cons_of_neg (by simp [he]), dictGet?_cons, if_neg (by rw [he]; exact fun x => hne x.symm)]
      exact ih
    · rw [List.filter_cons_of_pos (by simp [he]), dictGet?_cons, dictGet?_cons]
      by_cases hk : e.1 = k
      · rw [if_pos hk, if_pos hk]
      · rw [if_neg hk, if_neg hk]
        exact ih

theorem dictGet?_filter_self (m : JobDict) (k0 : JobKey) :
    dictGet? (m.filter (fun e => decide (e.1 ≠ k0))) k0 = none := by
  rw [dictGet?_eq_none_iff]
  intro e he
  have := List.of_mem_filter he
  simpa using this

theorem dictInsert_fresh (m : JobDict) (k : JobKey) (v : Nat)
    (h : dictGet? m k = none) : dictInsert m k v = m ++ [(k, v)] := by
  simp [dictInsert, h]

theorem dictDel_present (m : JobDict) (k : JobKey) (h : (dictGet? m k).isSome) :
    dictDel m k = some (m.filter (fun e => decide (e.1 ≠ k))) := by
  simp [dictDel, h]

theorem dictDel_absent (m : JobDict) (k : JobKey) (h : dictGet? m k = none) :
    dictDel m k = none := by
  simp [dictDel, h]

/-! ### `splitOnChar` and the strptime characterisation -/

theorem splitOnChar_ne_nil (sep : Char) : ∀ s, splitOnChar sep s ≠ [] := by
  intro s
  induction s with
  | nil => simp [splitOnChar]
  | cons c t _ =>
    simp only [splitOnChar]
    split
    · simp
    · cases hr : splitOnChar sep t with
      | nil => simp
      | cons h t2 => simp

theorem joinSep_splitOnChar (sep : Char) : ∀ s, joinSep sep (splitOnChar sep s) = s := by
  intro s
  induction s with
  | nil => rfl
  | cons c t ih =>
    simp only [splitOnChar]
    split
    · rename_i hc
      cases hr : splitOnChar sep t with
      | nil => exact absurd hr (splitOnChar_ne_nil sep t)
      | cons h t2 =>
        have iht : joinSep sep (h :: t2) = t := by rw [← hr]; exact ih
        show [] ++ sep :: joinSep sep (h :: t2) = c :: t
        rw [iht, hc]
        rfl
    · rename_i hc
      cases hr : splitOnChar sep t with
      | nil => exact absurd hr (splitOnChar_ne_nil sep t)
      | cons h t2 =>
        have iht : joinSep sep (h :: t2) = t := by rw [← hr]; exact ih
        cases t2 with
        | nil =>
          show c :: h = c :: t
          have : h = t := iht
          rw [this]
        | cons p ps =>
          show c :: (h ++ sep :: joinSep sep (p :: ps)) = c :: t
          have : h ++ sep :: joinSep sep (p :: ps) = t := iht
          rw [this]

theorem splitOnChar_pieces (sep : Char) : ∀ s, ∀ p ∈ splitOnChar sep s, sep ∉ p := by
  intro s
  induction s with
  | nil =>
    intro p hp
    simp [splitOnChar] at hp
    simp [hp]
  | cons c t ih =>
    intro p hp
    simp only [splitOnChar] at hp
    by_cases hc : c = sep
    · rw [if_pos hc] at hp
      rcases List.mem_cons.1 hp with rfl | hp2
      · simp
      · exact ih p hp2
    · rw [if_neg hc] at hp
      cases hr : splitOnChar sep t with
      | nil => exact absurd hr (splitOnChar_ne_nil sep t)
      | cons h t2 =>
        rw [hr] at hp
        rcases List.mem_cons.1 hp with rfl | hp2
        · intro hmem
          rcases List.mem_cons.1 hmem with he | hmem2
          · exact hc he.symm
          · exact ih h (by rw [hr]; exact List.mem_cons_self h t2) hmem2
        · exact ih p (by rw [hr]; exact List.mem_cons_of_mem h hp2)

theorem splitOnChar_no_sep (sep : Char) : ∀ z, sep ∉ z → splitOnChar sep z = [z] := by
  intro z
  induction z with
  | nil => intro _; rfl
  | cons c t ih =>
    intro hz
    have hc : ¬ c = sep := fun e => hz (by rw [e]; exact List.mem_cons_self _ _)
    have ht : sep ∉ t := fun e => hz (List.mem_cons_of_mem _ e)
    simp only [splitOnChar]
    rw [if_neg hc, ih ht]

theorem splitOnChar_append (sep : Char) : ∀ (y rest : List Char), sep ∉ y →
    splitOnChar sep (y ++ sep :: rest) = y :: splitOnChar sep rest := by
  intro y
  induction y with
  | nil =>
    intro rest _
    simp [splitOnChar]
  | cons c yt ih =>
    intro rest hy
    have hc : ¬ c = sep := fun e => hy (by rw [e]; exact List.mem_cons_self _ _)
    have hyt : sep ∉ yt := fun e => hy (List.mem_cons_of_mem _ e)
    simp only [List.cons_append, splitOnChar, List.append_eq]
    rw [if_neg hc, ih rest hyt]

theorem charsToNat?_eq_some_iff (s : List Char) (v : Nat) :
    charsToNat? s = some v ↔ (s ≠ [] ∧ (∀ c ∈ s, c.isDigit = true) ∧ natOfDigits s = v) := by
  unfold charsToNat?
  split
  · rename_i hcond
    simp only [Option.some.injEq]
    constructor
    · rintro rfl
      exact ⟨hcond.1, by simpa [List.all_eq_true] using hcond.2, rfl⟩
    · rintro ⟨_, _, rfl⟩
      rfl
  · rename_i hcond
    constructor
    · rintro h
      cases h
    · rintro ⟨h1, h2, _⟩
      exact absurd ⟨h1, by simpa [List.all_eq_true] using h2⟩ hcond

theorem daysInMonth_le_31 (y m : Nat) : daysInMonth y m ≤ 31 := by
  simp only [daysInMonth]
  split
  · split <;> omega
  · split <;> omega

theorem digit_ne_hyphen (c : Char) (h : c.isDigit = true) : c ≠ '-' := by
  intro he
  rw [he] at h
  exact absurd h (by decide)

theorem parseDateChars_isSome_iff (s : List Char) :
    (parseDateChars s).isSome = true ↔ StrptimeMatch s := by
  constructor
  · intro h
    unfold parseDateChars at h
    cases hsp : splitOnChar '-' s with
    | nil => exact absurd hsp (splitOnChar_ne_nil _ s)
    | cons ys rest1 =>
      cases rest1 with
      | nil => rw [hsp] at h; simp at h
      | cons ms rest2 =>
        cases rest2 with
        | nil => rw [hsp] at h; simp at h
        | cons ds rest3 =>
          cases rest3 with
          | cons z zs => rw [hsp] at h; simp at h
          | nil =>
            rw [hsp] at h
            simp only at h
            cases hy : charsToNat? ys with
            | none => rw [hy] at h; simp at h
            | some yv =>
              cases hm : charsToNat? ms with
              | none => rw [hy, hm] at h; simp at h
              | some mv =>
                cases hdd : charsToNat? ds with
                | none => rw [hy, hm, hdd] at h; simp at h
                | some dv =>
                  rw [hy, hm, hdd] at h
                  simp only at h
                  split at h
                  · rename_i hcond
                    obtain ⟨hy1, hy2, hy3⟩ := (charsToNat?_eq_some_iff ys yv).1 hy
                    obtain ⟨hm1, hm2, hm3⟩ := (charsToNat?_eq_some_iff ms mv).1 hm
                    obtain ⟨hd1, hd2, hd3⟩ := (charsToNat?_eq_some_iff ds dv).1 hdd
                    refine ⟨ys, ms, ds, ?_, hcond.1, hy2, ?_, ?_, hm2, ?_, ?_, hd2,
                      ?_, ?_, ?_, ?_, ?_, ?_⟩
                    · have hj := joinSep_splitOnChar '-' s
                      rw [hsp] at hj
                      exact hj.symm
                    · cases ms with
                      | nil => exact absurd rfl hm1
                      | cons a b => simp
                    · exact hcond.2.2.1
                    · cases ds with
                      | nil => exact absurd rfl hd1
                      | cons a b => simp
                    · exact hcond.2.2.2.2.2.1
                    · rw [hm3]; exact hcond.2.2.2.1
                    · rw [hm3]; exact hcond.2.2.2.2.1
                    · rw [hd3]; exact hcond.2.2.2.2.2.2.1
                    · rw [hd3]
                      exact le_trans hcond.2.2.2.2.2.2.2 (daysInMonth_le_31 yv mv)
                    · rw [hy3]; exact hcond.2.1
                    · rw [hd3, hy3, hm3]; exact hcond.2.2.2.2.2.2.2
                  · cases h
  · rintro ⟨ys, ms, ds, hs, hylen, hydig, hmlen1, hmlen2, hmdig, hdlen1, hdlen2, hddig,
      hm1, hm12, hd1, hd31, hy1, hdm⟩
    have hyh : ('-' : Char) ∉ ys := fun hm => digit_ne_hyphen _ (hydig _ hm) rfl
    have hmh : ('-' : Char) ∉ ms := fun hm2 => digit_ne_hyphen _ (hmdig _ hm2) rfl
    have hdh : ('-' : Char) ∉ ds := fun hm2 => digit_ne_hyphen _ (hddig _ hm2) rfl
    have hsp : splitOnChar '-' s = [ys, ms, ds] := by
      rw [hs, splitOnChar_append '-' ys _ hyh, splitOnChar_append '-' ms _ hmh,
        splitOnChar_no_sep '-' ds hdh]
    have hyne : ys ≠ [] := by intro e; rw [e] at hylen; simp at hylen
    have hmne : ms ≠ [] := by intro e; rw [e] at hmlen1; simp at hmlen1
    have hdne : ds ≠ [] := by intro e; rw [e] at hdlen1; simp at hdlen1
    unfold parseDateChars
    rw [hsp]
    simp only
    rw [(charsToNat?_eq_some_iff ys (natOfDigits ys)).2 ⟨hyne, hydig, rfl⟩,
      (charsToNat?_eq_some_iff ms (natOfDigits ms)).2 ⟨hmne, hmdig, rfl⟩,
      (charsToNat?_eq_some_iff ds (natOfDigits ds)).2 ⟨hdne, hddig, rfl⟩]
    simp only
    rw [if_pos ⟨hylen, hy1, hmlen2, hm1, hm12, hdlen2, hd1, hdm⟩]
    rfl

/-! ### Comparator congruence on the arena -/

theorem jobLt_ext (a a2 b b2 : JobApplication)
    (ha1 : a.importance = a2.importance) (ha2 : a.deadline = a2.deadline)
    (hb1 : b.importance = b2.importance) (hb2 : b.deadline = b2.deadline) :
    jobLt a b = jobLt a2 b2 := by
  simp [jobLt, ha1, ha2, hb1, hb2]

theorem ltStore_set_same_key (store : List JobApplication) (id : Nat) (r : JobApplication)
    (hr1 : r.importance = (store.getD id dfltJob).importance)
    (hr2 : r.deadline = (store.getD id dfltJob).deadline) :
    ltStore (store.set id r) = ltStore store := by
  funext i j
  by_cases hlen : id < store.length
  · have hval : ∀ u, ((store.set id r).getD u dfltJob).importance =
        ((store.getD u dfltJob)).importance ∧
        ((store.set id r).getD u dfltJob).deadline = ((store.getD u dfltJob)).deadline := by
      intro u
      by_cases hu : u = id
      · rw [hu, getD_set_self store id r dfltJob hlen]
        exact ⟨hr1, hr2⟩
      · rw [getD_set_ne store id u r dfltJob (fun e => hu e.symm)]
        exact ⟨rfl, rfl⟩
    unfold ltStore
    exact jobLt_ext _ _ _ _ (hval i).1 (hval i).2 (hval j).1 (hval j).2
  · rw [List.set_eq_of_length_le (by omega)]

theorem ltStore_append (store js : List JobApplication) (i j : Nat)
    (hi : i < store.length) (hj : j < store.length) :
    ltStore (store ++ js) i j = ltStore store i j := by
  unfold ltStore
  rw [getD_append_left store js i dfltJob hi, getD_append_left store js j dfltJob hj]

/-! ### `JobApplication.make` facts -/

theorem make_fields (c p dl : String) (imp : Int) (job : JobApplication)
    (hmk : JobApplication.make c p dl imp = Except.ok job) :
    job.company = c ∧ job.position = p ∧ job.status = "Pending" ∧ job.importance = imp := by
  unfold JobApplication.make at hmk
  cases hp : parseDateChars dl.data with
  | none => rw [hp] at hmk; cases hmk
  | some v =>
    rw [hp] at hmk
    simp only at hmk
    split at hmk
    · cases hmk
    · simp only [Except.ok.injEq] at hmk
      rw [← hmk]
      exact ⟨rfl, rfl, rfl, rfl⟩

theorem make_error_of_bad_input (c p dl : String) (imp : Int)
    (h : parseDateChars dl.data = none ∨ imp ≤ 0) :
    ∀ job, JobApplication.make c p dl imp ≠ Except.ok job := by
  intro job hmk
  unfold JobApplication.make at hmk
  cases hp : parseDateChars dl.data with
  | none => rw [hp] at hmk; cases hmk
  | some v =>
    rw [hp] at hmk
    simp only at hmk
    split at hmk
    · cases hmk
    · rename_i himp
      rcases h with h | h
      · rw [hp] at h; cases h
      · exact himp h

/-! ### `add_application` state facts -/

theorem addApplication_error (t : JobTracker) (c p dl : String) (imp : Int) (msg : String)
    (hmk : JobApplication.make c p dl imp = Except.error msg) :
    addApplication t c p dl imp = t := by
  unfold addApplication
  rw [hmk]

theorem addApplication_ok (t : JobTracker) (c p dl : String) (imp : Int)
    (job : JobApplication) (hmk : JobApplication.make c p dl imp = Except.ok job) :
    addApplication t c p dl imp =
      { store := t.store ++ [job],
        jobHeap := heappush (ltStore (t.store ++ [job])) 0 t.jobHeap t.store.length,
        jobs := dictInsert t.jobs (c, p) t.store.length } := by
  unfold addApplication
  rw [hmk]

theorem addApplication_goodState (t : JobTracker) (c p dl : String) (imp : Int)
    (hg : GoodState t) (hfresh : dictGet? t.jobs (c, p) = none) :
    GoodState (addApplication t c p dl imp) ∧
    (∀ k, dictGet? (addApplication t c p dl imp).jobs k ≠ none →
      dictGet? t.jobs k ≠ none ∨ k = (c, p)) := by
  cases hmk : JobApplication.make c p dl imp with
  | error msg =>
    rw [addApplication_error t c p dl imp msg hmk]
    exact ⟨hg, fun k h => Or.inl h⟩
  | ok job =>
    rw [addApplication_ok t c p dl imp job hmk]
    obtain ⟨hco, hpo, _, _⟩ := make_fields c p dl imp job hmk
    obtain ⟨hinv, hrange, hnodup, hknodup, hsync1, hsync2, hjnodup⟩ := hg
    set store2 := t.store ++ [job] with hst2
    set id0 := t.store.length with hid0
    set heap2 := heappush (ltStore store2) 0 t.jobHeap id0 with hhp2
    have hkey : keyOf job = (c, p) := by
      unfold keyOf
      rw [hco, hpo]
    have hjobs2 : dictInsert t.jobs (c, p) id0 = t.jobs ++ [((c, p), id0)] :=
      dictInsert_fresh t.jobs (c, p) id0 hfresh
    have hperm : List.Perm heap2 (t.jobHeap ++ [id0]) := heappush_perm _ _ _ _
    have hmem2 : ∀ x, x ∈ heap2 ↔ (x ∈ t.jobHeap ∨ x = id0) := by
      intro x
      rw [hperm.mem_iff]
      simp
    have hgetD2 : ∀ u, u < t.store.length → store2.getD u dfltJob = t.store.getD u dfltJob := by
      intro u hu
      exact getD_append_left t.store [job] u dfltJob hu
    have hgetDid0 : store2.getD id0 dfltJob = job := getD_append_len t.store job dfltJob
    have hkeymap : (t.jobHeap.map (fun id => keyOf (store2.getD id dfltJob))) =
        (t.jobHeap.map (fun id => keyOf (t.store.getD id dfltJob))) := by
      apply List.map_congr_left
      intro a ha
      rw [hgetD2 a (hrange a ha)]
    have hknotin : (c, p) ∉ t.jobHeap.map (fun id => keyOf (t.store.getD id dfltJob)) := by
      intro hm
      obtain ⟨idx, hidx, hkeq⟩ := List.mem_map.1 hm
      have := hsync2 idx hidx
      rw [hkeq, hfresh] at this
      cases this
    refine ⟨⟨?_, ?_, ?_, ?_, ?_, ?_, ?_⟩, ?_⟩
    · -- heap invariant
      apply heappush_heapInv (ltStore store2) 0 (ltStore_irrefl store2)
        (ltStore_asymm store2) (ltStore_le_trans store2)
      apply heapInv_congr (ltStore t.store) (ltStore store2) 0 t.jobHeap
      · intro x hx y hy
        exact (ltStore_append t.store [job] x y (hrange x hx) (hrange y hy)).symm
      · exact hinv
    · -- ids in range
      intro id hid
      rcases (hmem2 id).1 hid with h | rfl
      · have := hrange id h
        rw [hst2]
        simp only [List.length_append, List.length_cons, List.length_nil]
        omega
      · rw [hst2]
        simp only [List.length_append, List.length_cons, List.length_nil]
        omega
    · -- heap ids distinct
      apply hperm.nodup_iff.2
      rw [List.nodup_append]
      refine ⟨hnodup, by simp, ?_⟩
      simp only [List.disjoint_singleton]
      intro hmem
      have := hrange id0 hmem
      omega
    · -- heap keys distinct
      have hp2 := hperm.map (fun id => keyOf (store2.getD id dfltJob))
      apply hp2.nodup_iff.2
      rw [List.map_append, hkeymap]
      rw [List.nodup_append]
      refine ⟨hknodup, by simp, ?_⟩
      simp only [List.map_cons, List.map_nil, List.disjoint_singleton]
      rw [hgetDid0, hkey]
      exact fun hm => hknotin hm
    · -- dictionary entries point into the heap
      intro e he
      rw [hjobs2] at he
      rcases List.mem_append.1 he with he | he
      · obtain ⟨hh, hk⟩ := hsync1 e he
        refine ⟨(hmem2 e.2).2 (Or.inl hh), ?_⟩
        rw [hgetD2 e.2 (hrange e.2 hh)]
        exact hk
      · simp only [List.mem_singleton] at he
        rw [he]
        refine ⟨(hmem2 id0).2 (Or.inr rfl), ?_⟩
        rw [hgetDid0, hkey]
    · -- heap ids are found in the dictionary
      intro id hid
      rcases (hmem2 id).1 hid with h | rfl
      · rw [hjobs2, hgetD2 id (hrange id h)]
        exact dictGet?_append_some t.jobs [((c, p), id0)] _ id (hsync2 id h)
      · rw [hjobs2, hgetDid0, hkey]
        rw [dictGet?_append_none t.jobs [((c, p), id0)] (c, p) hfresh]
        rw [dictGet?_cons]
        simp
    · -- dictionary keys distinct
      rw [hjobs2, List.map_append, List.nodup_append]
      refine ⟨hjnodup, by simp, ?_⟩
      simp only [List.map_cons, List.map_nil, List.disjoint_singleton]
      intro hm
      obtain ⟨e, he, hk⟩ := List.mem_map.1 hm
      exact (dictGet?_eq_none_iff t.jobs (c, p)).1 hfresh e he hk
    · -- key tracking
      intro k hk
      rw [hjobs2] at hk
      by_cases ho : dictGet? t.jobs k = none
      · rw [dictGet?_append_none t.jobs [((c, p), id0)] k ho, dictGet?_cons] at hk
        by_cases hkc : k = (c, p)
        · exact Or.inr hkc
        · rw [if_neg (fun e => hkc e.symm)] at hk
          exact absurd rfl hk
      · exact Or.inl ho

/-! ### `process_next_application` state facts -/

theorem keyOf_markProcessed (r : JobApplication) : keyOf (markProcessed r) = keyOf r := rfl

theorem processNext_empty (t : JobTracker) (h : t.jobHeap = []) :
    processNext t = (t, PopResult.empty) := by
  unfold processNext
  rw [h]
  rfl

theorem processNext_ok (t : JobTracker) (id : Nat) (rest : List Nat) (hg : GoodState t)
    (he : heappop (ltStore t.store) 0 t.jobHeap = some (id, rest)) :
    processNext t =
      ({ store := t.store.set id (markProcessed (t.store.getD id dfltJob)),
         jobHeap := rest,
         jobs := t.jobs.filter (fun e => decide (e.1 ≠ keyOf (t.store.getD id dfltJob))) },
       PopResult.ok id) := by
  obtain ⟨hinv, hrange, hnodup, hknodup, hsync1, hsync2, hjnodup⟩ := hg
  obtain ⟨_, hperm, _⟩ := heappop_spec (ltStore t.store) 0 (ltStore_irrefl _)
    (ltStore_asymm _) (ltStore_le_trans _) t.jobHeap hinv id rest he
  have hidmem : id ∈ t.jobHeap := hperm.subset (List.mem_cons_self id rest)
  have hdict := hsync2 id hidmem
  unfold processNext
  rw [he]
  simp only
  rw [show ((t.store.getD id dfltJob).company, (t.store.getD id dfltJob).position) =
      keyOf (t.store.getD id dfltJob) from rfl,
    dictDel_present t.jobs (keyOf (t.store.getD id dfltJob)) (by rw [hdict]; rfl)]

theorem processNext_ok_goodState (t : JobTracker) (id : Nat) (rest : List Nat)
    (hg : GoodState t)
    (he : heappop (ltStore t.store) 0 t.jobHeap = some (id, rest)) :
    GoodState { store := t.store.set id (markProcessed (t.store.getD id dfltJob)),
                jobHeap := rest,
                jobs := t.jobs.filter (fun e => decide (e.1 ≠ keyOf (t.store.getD id dfltJob))) } ∧
    (∀ k, dictGet? (t.jobs.filter
        (fun e => decide (e.1 ≠ keyOf (t.store.getD id dfltJob)))) k ≠ none →
      dictGet? t.jobs k ≠ none) := by
  obtain ⟨hinv, hrange, hnodup, hknodup, hsync1, hsync2, hjnodup⟩ := hg
  obtain ⟨hx0, hperm, hinvrest⟩ := heappop_spec (ltStore t.store) 0 (ltStore_irrefl _)
    (ltStore_asymm _) (ltStore_le_trans _) t.jobHeap hinv id rest he
  have hidmem : id ∈ t.jobHeap := hperm.subset (List.mem_cons_self id rest)
  have hidlen : id < t.store.length := hrange id hidmem
  have hltEq : ltStore (t.store.set id (markProcessed (t.store.getD id dfltJob))) =
      ltStore t.store :=
    ltStore_set_same_key t.store id _ rfl rfl
  have hkeyD : ∀ j, keyOf ((t.store.set id (markProcessed (t.store.getD id dfltJob))).getD
      j dfltJob) = keyOf (t.store.getD j dfltJob) := by
    intro j
    by_cases hji : j = id
    · rw [hji, getD_set_self t.store id _ dfltJob hidlen, keyOf_markProcessed]
    · rw [getD_set_ne t.store id j _ dfltJob (fun e => hji e.symm)]
  have hrestmem : ∀ x ∈ rest, x ∈ t.jobHeap :=
    fun x hx => hperm.subset (List.mem_cons_of_mem id hx)
  have hnodups : (id :: rest).Nodup := hperm.nodup_iff.2 hnodup
  have hidnot : id ∉ rest := (List.nodup_cons.1 hnodups).1
  have hrestnodup : rest.Nodup := (List.nodup_cons.1 hnodups).2
  have hkperm := hperm.map (fun i => keyOf (t.store.getD i dfltJob))
  have hknodups : ((id :: rest).map (fun i => keyOf (t.store.getD i dfltJob))).Nodup :=
    hkperm.nodup_iff.2 hknodup
  rw [List.map_cons] at hknodups
  have hk0not : keyOf (t.store.getD id dfltJob) ∉
      rest.map (fun i => keyOf (t.store.getD i dfltJob)) :=
    (List.nodup_cons.1 hknodups).1
  refine ⟨⟨?_, ?_, hrestnodup, ?_, ?_, ?_, ?_⟩, ?_⟩
  · rw [hltEq]
    exact hinvrest
  · intro x hx
    have := hrange x (hrestmem x hx)
    simpa using this
  · rw [List.map_congr_left (fun a _ => hkeyD a)]
    exact (List.nodup_cons.1 hknodups).2
  · intro e he2
    have hmem := List.mem_filter.1 he2
    have hne : e.1 ≠ keyOf (t.store.getD id dfltJob) := by simpa using hmem.2
    obtain ⟨hh, hk⟩ := hsync1 e hmem.1
    have : e.2 ∈ id :: rest := hperm.mem_iff.2 hh
    rcases List.mem_cons.1 this with hei | hei
    · exfalso
      apply hne
      rw [← hk, hei]
    · refine ⟨hei, ?_⟩
      rw [hkeyD e.2]
      exact hk
  · intro idx hidx
    rw [hkeyD idx]
    have hne : keyOf (t.store.getD idx dfltJob) ≠ keyOf (t.store.getD id dfltJob) := by
      intro he2
      apply hk0not
      rw [← he2]
      exact List.mem_map_of_mem _ hidx
    rw [dictGet?_filter_ne t.jobs _ _ hne]
    exact hsync2 idx (hrestmem idx hidx)
  · exact List.Nodup.sublist (List.Sublist.map _ (List.filter_sublist t.jobs)) hjnodup
  · intro k hk
    by_cases hkc : k = keyOf (t.store.getD id dfltJob)
    · rw [hkc, dictGet?_filter_self] at hk
      exact absurd rfl hk
    · rw [dictGet?_filter_ne t.jobs _ k hkc] at hk
      exact hk

theorem processNext_goodState (t : JobTracker) (hg : GoodState t) :
    GoodState (processNext t).1 ∧
    (∀ k, dictGet? (processNext t).1.jobs k ≠ none → dictGet? t.jobs k ≠ none) := by
  cases he : heappop (ltStore t.store) 0 t.jobHeap with
  | none =>
    rw [processNext_empty t ((heappop_eq_none_iff _ _ _).1 he)]
    exact ⟨hg, fun k h => h⟩
  | some pr =>
    obtain ⟨id, rest⟩ := pr
    rw [processNext_ok t id rest hg he]
    exact processNext_ok_goodState t id rest hg he

theorem processAll_eq_popListAux : ∀ (fuel : Nat) (t : JobTracker), GoodState t →
    processAll fuel t = popListAux (ltStore t.store) 0 fuel t.jobHeap := by
  intro fuel
  induction fuel with
  | zero => intro t _; rfl
  | succ fuel ih =>
    intro t hg
    simp only [processAll, popListAux]
    cases he : heappop (ltStore t.store) 0 t.jobHeap with
    | none =>
      rw [processNext_empty t ((heappop_eq_none_iff _ _ _).1 he)]
    | some pr =>
      obtain ⟨id, rest⟩ := pr
      obtain ⟨hgs, _⟩ := processNext_ok_goodState t id rest hg he
      rw [processNext_ok t id rest hg he]
      simp only
      rw [ih _ hgs]
      simp only
      congr 1
      exact congrArg (fun f => popListAux f 0 fuel rest)
        (ltStore_set_same_key t.store id _ rfl rfl)

/-! ### Operation sequences -/

theorem emptyTracker_goodState : GoodState emptyTracker := by decide

theorem runOps_goodState : ∀ (ops : List Op) (t : JobTracker), GoodState t →
    (addKeys ops).Nodup →
    (∀ k, dictGet? t.jobs k ≠ none → k ∉ addKeys ops) →
    GoodState (runOps t ops) ∧
    (∀ k, dictGet? (runOps t ops).jobs k ≠ none →
      dictGet? t.jobs k ≠ none ∨ k ∈ addKeys ops) := by
  intro ops
  induction ops with
  | nil => intro t hg _ _; exact ⟨hg, fun k h => Or.inl h⟩
  | cons op ops ih =>
    intro t hg hnd hdisj
    cases op with
    | add c p dl imp =>
      have haddkeys : addKeys (Op.add c p dl imp :: ops) = (c, p) :: addKeys ops := rfl
      rw [haddkeys] at hnd hdisj
      have hfresh : dictGet? t.jobs (c, p) = none := by
        by_contra hc
        exact hdisj (c, p) hc (List.mem_cons_self _ _)
      obtain ⟨hg2, htrack⟩ := addApplication_goodState t c p dl imp hg hfresh
      have hrun : runOps t (Op.add c p dl imp :: ops) =
          runOps (addApplication t c p dl imp) ops := rfl
      rw [hrun, haddkeys]
      have hnd2 : (addKeys ops).Nodup := (List.nodup_cons.1 hnd).2
      have hknotin : (c, p) ∉ addKeys ops := (List.nodup_cons.1 hnd).1
      have hdisj2 : ∀ k, dictGet? (addApplication t c p dl imp).jobs k ≠ none →
          k ∉ addKeys ops := by
        intro k hk hmem
        rcases htrack k hk with ho | rfl
        · exact hdisj k ho (List.mem_cons_of_mem _ hmem)
        · exact hknotin hmem
      obtain ⟨hg3, htrack3⟩ := ih (addApplication t c p dl imp) hg2 hnd2 hdisj2
      refine ⟨hg3, ?_⟩
      intro k hk
      rcases htrack3 k hk with ho | hmem
      · rcases htrack k ho with ho2 | rfl
        · exact Or.inl ho2
        · exact Or.inr (List.mem_cons_self _ _)
      · exact Or.inr (List.mem_cons_of_mem _ hmem)
    | processNext =>
      have hrun : runOps t (Op.processNext :: ops) = runOps (processNext t).1 ops := rfl
      have haddkeys : addKeys (Op.processNext :: ops) = addKeys ops := rfl
      rw [haddkeys] at hnd hdisj
      obtain ⟨hg2, htrack⟩ := processNext_goodState t hg
      rw [hrun, haddkeys]
      obtain ⟨hg3, htrack3⟩ := ih (processNext t).1 hg2 hnd (fun k hk => hdisj k (htrack k hk))
      refine ⟨hg3, ?_⟩
      intro k hk
      rcases htrack3 k hk with ho | hmem
      · exact Or.inl (htrack k ho)
      · exact Or.inr hmem

/-! ### Remaining helper lemmas for the claims -/

theorem getD_eq_get {α : Type} (l : List α) (i : Nat) (d : α) (h : i < l.length) :
    l.getD i d = l.get ⟨i, h⟩ := by
  simp [List.getD_eq_getElem?_getD, List.getElem?_eq_getElem h, List.get_eq_getElem]

theorem dateLt_false_iff (a b : PyDate) : dateLt a b = false ↔
    ¬ (a.year < b.year ∨ (a.year = b.year ∧
      (a.month < b.month ∨ (a.month = b.month ∧ a.day < b.day)))) := by
  simp [dateLt]

/-! ### Claims -/

/-- C1: for every well-formed tracker state, draining it with successive
`process_next_application` calls returns every pending record, and a record
with strictly higher importance is always returned strictly earlier than one
with lower importance, regardless of insertion order (the state is
universally quantified). -/
theorem spec_c1 (t : JobTracker) (hg : GoodState t) :
    List.Perm (returnedIds t) t.jobHeap ∧
    ∀ i j, i < j → j < (returnedIds t).length →
      (t.store.getD ((returnedIds t).getD j 0) dfltJob).importance ≤
      (t.store.getD ((returnedIds t).getD i 0) dfltJob).importance := by
  have hb : returnedIds t = popListAux (ltStore t.store) 0 t.jobHeap.length t.jobHeap :=
    processAll_eq_popListAux t.jobHeap.length t hg
  obtain ⟨hperm, hsort⟩ := popListAux_spec (ltStore t.store) 0 (ltStore_irrefl _)
    (ltStore_asymm _) (ltStore_le_trans _) t.jobHeap.length t.jobHeap hg.1 (Nat.le_refl _)
  rw [hb]
  refine ⟨hperm, ?_⟩
  intro i j hij hj
  have hi : i < (popListAux (ltStore t.store) 0 t.jobHeap.length t.jobHeap).length :=
    lt_trans hij hj
  rw [getD_eq_get _ j 0 hj, getD_eq_get _ i 0 hi]
  have hrel := (List.pairwise_iff_get.1 hsort) ⟨i, hi⟩ ⟨j, hj⟩ (Fin.mk_lt_mk.2 hij)
  simp only at hrel
  have hrel2 := (jobLt_false_iff _ _).1 hrel
  omega

/-- C1 witness: the worked three-record example of the specification. -/
theorem spec_c1_witness : GoodState exTracker ∧
    (List.Perm (returnedIds exTracker) exTracker.jobHeap ∧
    ∀ i j, i < j → j < (returnedIds exTracker).length →
      (exTracker.store.getD ((returnedIds exTracker).getD j 0) dfltJob).importance ≤
      (exTracker.store.getD ((returnedIds exTracker).getD i 0) dfltJob).importance) :=
  ⟨by decide, spec_c1 exTracker (by decide)⟩

/-- C2: among records returned by successive `process_next_application`
calls, two with equal importance come out in deadline order: the later-popped
one never has a strictly earlier deadline. -/
theorem spec_c2 (t : JobTracker) (hg : GoodState t) :
    List.Perm (returnedIds t) t.jobHeap ∧
    ∀ i j, i < j → j < (returnedIds t).length →
      (t.store.getD ((returnedIds t).getD i 0) dfltJob).importance =
        (t.store.getD ((returnedIds t).getD j 0) dfltJob).importance →
      dateLt (t.store.getD ((returnedIds t).getD j 0) dfltJob).deadline
        (t.store.getD ((returnedIds t).getD i 0) dfltJob).deadline = false := by
  have hb : returnedIds t = popListAux (ltStore t.store) 0 t.jobHeap.length t.jobHeap :=
    processAll_eq_popListAux t.jobHeap.length t hg
  obtain ⟨hperm, hsort⟩ := popListAux_spec (ltStore t.store) 0 (ltStore_irrefl _)
    (ltStore_asymm _) (ltStore_le_trans _) t.jobHeap.length t.jobHeap hg.1 (Nat.le_refl _)
  rw [hb]
  refine ⟨hperm, ?_⟩
  intro i j hij hj
  have hi : i < (popListAux (ltStore t.store) 0 t.jobHeap.length t.jobHeap).length :=
    lt_trans hij hj
  rw [getD_eq_get _ j 0 hj, getD_eq_get _ i 0 hi]
  intro himp
  have hrel := (List.pairwise_iff_get.1 hsort) ⟨i, hi⟩ ⟨j, hj⟩ (Fin.mk_lt_mk.2 hij)
  simp only at hrel
  have hrel2 := (jobLt_false_iff _ _).1 hrel
  rw [dateLt_false_iff]
  omega

/-- C2 witness: the worked example contains an importance tie broken by
deadline (Globex before Acme). -/
theorem spec_c2_witness : GoodState exTracker ∧
    (List.Perm (returnedIds exTracker) exTracker.jobHeap ∧
    ∀ i j, i < j → j < (returnedIds exTracker).length →
      (exTracker.store.getD ((returnedIds exTracker).getD i 0) dfltJob).importance =
        (exTracker.store.getD ((returnedIds exTracker).getD j 0) dfltJob).importance →
      dateLt (exTracker.store.getD ((returnedIds exTracker).getD j 0) dfltJob).deadline
        (exTracker.store.getD ((returnedIds exTracker).getD i 0) dfltJob).deadline = false) :=
  ⟨by decide, spec_c2 exTracker (by decide)⟩

/-- C4: `add_application` with an unparsable deadline or non-positive
importance leaves the whole tracker (heap and index) exactly unchanged. -/
theorem spec_c4 (t : JobTracker) (c p dl : String) (imp : Int)
    (h : parseDateChars dl.data = none ∨ imp ≤ 0) :
    addApplication t c p dl imp = t := by
  cases hmk : JobApplication.make c p dl imp with
  | error msg => exact addApplication_error t c p dl imp msg hmk
  | ok job => exact absurd hmk (make_error_of_bad_input c p dl imp h job)

/-- C4 witness: an out-of-range month on a populated tracker. -/
theorem spec_c4_witness :
    (parseDateChars "2025-13-01".data = none ∨ (5 : Int) ≤ 0) ∧
    addApplication exTracker "Wayne" "Ops" "2025-13-01" 5 = exTracker :=
  ⟨Or.inl (by decide), spec_c4 exTracker "Wayne" "Ops" "2025-13-01" 5 (Or.inl (by decide))⟩

/-- C8: on an empty tracker `process_next_application` returns the `None`
empty signal and leaves the state untouched (so repetition returns the same
signal), and `view_pending_applications` returns its empty signal. -/
theorem spec_c8 (t : JobTracker) (h : t.jobHeap = []) :
    processNext t = (t, PopResult.empty) ∧ viewPending t = none := by
  refine ⟨processNext_empty t h, ?_⟩
  unfold viewPending
  rw [h]
  rfl

/-- C8 witness: the freshly constructed tracker. -/
theorem spec_c8_witness : emptyTracker.jobHeap = [] ∧
    (processNext emptyTracker = (emptyTracker, PopResult.empty) ∧
      viewPending emptyTracker = none) :=
  ⟨rfl, spec_c8 emptyTracker rfl⟩

/-- C9: `__lt__` is irreflexive, asymmetric and transitive on records. -/
theorem spec_c9 : ∀ a b c : JobApplication,
    jobLt a a = false ∧
    (jobLt a b = true → jobLt b a = false) ∧
    (jobLt a b = true → jobLt b c = true → jobLt a c = true) :=
  fun a b c => ⟨jobLt_irrefl a, jobLt_asymm a b, jobLt_trans a b c⟩

/-- C9 witness: concrete records ordered by importance then deadline. -/
theorem spec_c9_witness :
    (jobLt jobA jobB = true ∧ jobLt jobB jobC = true) ∧ jobLt jobA jobC = true :=
  ⟨by decide, (spec_c9 jobA jobB jobC).2.2 (by decide) (by decide)⟩

/-- C10: `update_status` on an unknown key reports `NotFound` whatever the
requested status is (the key check precedes the status check), and every
failing call leaves the tracker unchanged. -/
theorem spec_c10 (t : JobTracker) (c p s : String) :
    (dictGet? t.jobs (c, p) = none →
      updateStatus t c p s = (t, some UpdateError.notFound)) ∧
    (∀ e, (updateStatus t c p s).2 = some e → (updateStatus t c p s).1 = t) := by
  constructor
  · intro h
    unfold updateStatus
    rw [h]
  · intro e he
    unfold updateStatus at he ⊢
    cases hf : dictGet? t.jobs (c, p) with
    | none => rfl
    | some id =>
      rw [hf] at he
      simp only at he ⊢
      split at he
      · exact absurd he (by simp)
      · rename_i hcond
        rw [if_neg hcond]

/-- C10 witness: an unknown key together with an invalid status. -/
theorem spec_c10_witness : dictGet? exTracker.jobs ("Wayne", "Ops") = none ∧
    updateStatus exTracker "Wayne" "Ops" "Bogus" = (exTracker, some UpdateError.notFound) :=
  ⟨by decide, (spec_c10 exTracker "Wayne" "Ops" "Bogus").1 (by decide)⟩

/-- C3: running any `add`/`processNext` sequence with pairwise-distinct
(company, position) pairs from a fresh tracker keeps `jobs` and `job_heap`
mirrored: every dictionary entry points to a heap reference bearing its key,
and every heap reference is found in the dictionary under its own key. -/
theorem spec_c3 (ops : List Op) (hnd : (addKeys ops).Nodup) :
    (∀ e ∈ (runOps emptyTracker ops).jobs,
        e.2 ∈ (runOps emptyTracker ops).jobHeap ∧
        keyOf ((runOps emptyTracker ops).store.getD e.2 dfltJob) = e.1) ∧
    (∀ id ∈ (runOps emptyTracker ops).jobHeap,
        dictGet? (runOps emptyTracker ops).jobs
          (keyOf ((runOps emptyTracker ops).store.getD id dfltJob)) = some id) := by
  obtain ⟨hg, _⟩ := runOps_goodState ops emptyTracker emptyTracker_goodState hnd
    (fun _ hk => (hk rfl).elim)
  exact ⟨hg.2.2.2.2.1, hg.2.2.2.2.2.1⟩

/-- C3 witness: a mixed sequence of adds (one invalid) and pops. -/
theorem spec_c3_witness : (addKeys exOps).Nodup ∧
    ((∀ e ∈ (runOps emptyTracker exOps).jobs,
        e.2 ∈ (runOps emptyTracker exOps).jobHeap ∧
        keyOf ((runOps emptyTracker exOps).store.getD e.2 dfltJob) = e.1) ∧
    (∀ id ∈ (runOps emptyTracker exOps).jobHeap,
        dictGet? (runOps emptyTracker exOps).jobs
          (keyOf ((runOps emptyTracker exOps).store.getD id dfltJob)) = some id)) :=
  ⟨by decide, spec_c3 exOps (by decide)⟩

/-- C5 counterexample: the claim says every deadline string deviating from
the strict four-digit/two-digit/two-digit form is rejected, but the code
(via `strptime`) accepts a one-digit month and day. -/
theorem spec_c5_cex : JobApplication.make "Acme" "Eng" "2025-6-1" 5 =
    Except.ok { company := "Acme", position := "Eng", deadline := ⟨2025, 6, 1⟩,
                importance := 5, status := "Pending" } := rfl

/-- C5 (amended): construction fails with `InvalidDeadlineFormat` exactly
when the string fails `strptime("%Y-%m-%d")`: an exactly-four-digit year of
value at least 1, a one- or two-digit month 1..12, a one- or two-digit day
that exists in that month, joined by single hyphens with nothing else. -/
theorem spec_c5 (c p dl : String) (imp : Int) :
    JobApplication.make c p dl imp =
      Except.error "Deadline must be in YYYY-MM-DD format." ↔ ¬ StrptimeMatch dl.data := by
  rw [← parseDateChars_isSome_iff]
  unfold JobApplication.make
  cases hp : parseDateChars dl.data with
  | none => simp
  | some v =>
    simp only [Option.isSome_some]
    constructor
    · intro h
      split at h
      · exfalso
        have h2 := Except.error.inj h
        exact absurd h2 (by decide)
      · exact absurd h (by simp)
    · intro h
      simp at h

/-- C7: `update_status` on a present key with a valid status succeeds,
leaves the heap untouched, leaves the `view_pending_applications` order
(the sequence of listed references) identical, and changes nothing except
the status field of the addressed record. -/
theorem spec_c7 (t : JobTracker) (c p s : String) (id : Nat)
    (hfind : dictGet? t.jobs (c, p) = some id) (hid : id < t.store.length)
    (hs : VALID_STATUSES.contains s = true) :
    (updateStatus t c p s).2 = none ∧
    (updateStatus t c p s).1.jobHeap = t.jobHeap ∧
    viewPending (updateStatus t c p s).1 = viewPending t ∧
    (updateStatus t c p s).1.store.getD id dfltJob =
      { t.store.getD id dfltJob with status := s } ∧
    (∀ j, j ≠ id → (updateStatus t c p s).1.store.getD j dfltJob =
      t.store.getD j dfltJob) := by
  have hupd : updateStatus t c p s =
      ({ t with store := t.store.set id ({ t.store.getD id dfltJob with status := s }) },
        none) := by
    unfold updateStatus
    rw [hfind]
    simp only
    rw [if_pos hs]
  rw [hupd]
  refine ⟨rfl, rfl, ?_, ?_, ?_⟩
  · have hle : leStore (t.store.set id ({ t.store.getD id dfltJob with status := s })) =
        leStore t.store := by
      funext a b
      unfold leStore
      rw [ltStore_set_same_key t.store id
        ({ t.store.getD id dfltJob with status := s }) rfl rfl]
    unfold viewPending
    simp only
    rw [hle]
  · exact getD_set_self t.store id _ dfltJob hid
  · intro j hj
    exact getD_set_ne t.store id j _ dfltJob (fun e => hj e.symm)

/-- C7 witness: the worked example with Acme moved to Interviewing. -/
theorem spec_c7_witness :
    (dictGet? exTracker.jobs ("Acme", "Eng") = some 0 ∧ 0 < exTracker.store.length ∧
      VALID_STATUSES.contains "Interviewing" = true) ∧
    ((updateStatus exTracker "Acme" "Eng" "Interviewing").2 = none ∧
    (updateStatus exTracker "Acme" "Eng" "Interviewing").1.jobHeap = exTracker.jobHeap ∧
    viewPending (updateStatus exTracker "Acme" "Eng" "Interviewing").1 =
      viewPending exTracker ∧
    (updateStatus exTracker "Acme" "Eng" "Interviewing").1.store.getD 0 dfltJob =
      { exTracker.store.getD 0 dfltJob with status := "Interviewing" } ∧
    (∀ j, j ≠ 0 → (updateStatus exTracker "Acme" "Eng" "Interviewing").1.store.getD j dfltJob =
      exTracker.store.getD j dfltJob)) :=
  ⟨⟨by decide, by decide, by decide⟩,
    spec_c7 exTracker "Acme" "Eng" "Interviewing" 0 (by decide) (by decide) (by decide)⟩

/-! ### Small computation lemmas for the duplicate-key scenario -/

theorem dictGet?_single_self (k : JobKey) (v : Nat) : dictGet? [(k, v)] k = some v := by
  rw [dictGet?_cons]
  simp

theorem dictDel_single_self (k : JobKey) (v : Nat) : dictDel [(k, v)] k = some [] := by
  rw [dictDel_present _ _ (by rw [dictGet?_single_self]; rfl)]
  simp

theorem dictInsert_single_overwrite (k : JobKey) (v w : Nat) :
    dictInsert [(k, v)] k w = [(k, w)] := by
  unfold dictInsert
  rw [if_pos (by rw [dictGet?_single_self]; rfl)]
  simp

theorem heappop_pair {α : Type} (lt : α → α → Bool) (d : α) (a b : α) :
    heappop lt d [a, b] = some (a, [b]) := rfl

theorem heappop_single {α : Type} (lt : α → α → Bool) (d : α) (a : α) :
    heappop lt d [a] = some (a, []) := rfl

theorem heappush_two (lt : Nat → Nat → Bool) :
    heappush lt 0 [0] 1 = if lt 1 0 = true then [1, 0] else [0, 1] := by
  unfold heappush siftdown
  rw [show (([0] : List Nat) ++ [1]) = [0, 1] from rfl]
  rw [show (([0] : List Nat).length) = 1 from rfl]
  rw [show (([0, 1] : List Nat).get? 1) = some 1 from rfl]
  simp only [siftdownLoop, parentIdx]
  norm_num

/-- C6 counterexample: after adding the same (company, position) twice, the
second `process_next_application` call raises an uncaught `KeyError`
(`del` on an absent key), so not every pop of a duplicate completes. -/
theorem spec_c6_cex : (processNext (processNext tDup).1).2 = PopResult.keyError 1 := by
  decide

/-- C6 (amended): after a duplicate add of the same (company, position), the
first pop of a duplicate instance completes normally and deletes the shared
index key; the later pop of the remaining stale instance raises an uncaught
`KeyError`, because `del self.jobs[...]` on an absent key throws rather than
being a no-op. -/
theorem spec_c6 (c p d1 d2 : String) (i1 i2 : Int) (r1 r2 : JobApplication)
    (h1 : JobApplication.make c p d1 i1 = Except.ok r1)
    (h2 : JobApplication.make c p d2 i2 = Except.ok r2) :
    ∃ a b : Nat, ((a, b) = (0, 1) ∨ (a, b) = (1, 0)) ∧
      (processNext (addApplication (addApplication emptyTracker c p d1 i1) c p d2 i2)).2 =
        PopResult.ok a ∧
      (processNext (processNext (addApplication (addApplication emptyTracker c p d1 i1)
          c p d2 i2)).1).2 = PopResult.keyError b := by
  obtain ⟨hc1, hp1, _, _⟩ := make_fields c p d1 i1 r1 h1
  obtain ⟨hc2, hp2, _, _⟩ := make_fields c p d2 i2 r2 h2
  have ht1 : addApplication emptyTracker c p d1 i1 =
      { store := [r1], jobHeap := [0], jobs := [((c, p), 0)] } := by
    rw [addApplication_ok _ _ _ _ _ _ h1]
    rfl
  have ht2 : addApplication (addApplication emptyTracker c p d1 i1) c p d2 i2 =
      { store := [r1, r2], jobHeap := if jobLt r2 r1 = true then [1, 0] else [0, 1],
        jobs := [((c, p), 1)] } := by
    rw [ht1, addApplication_ok _ _ _ _ _ _ h2]
    simp only
    rw [show ([r1] : List JobApplication).length = 1 from rfl,
      heappush_two (ltStore ([r1] ++ [r2])),
      show ltStore ([r1] ++ [r2]) 1 0 = jobLt r2 r1 from rfl,
      dictInsert_single_overwrite (c, p) 0 1,
      show ([r1] ++ [r2] : List JobApplication) = [r1, r2] from rfl]
  by_cases hcmp : jobLt r2 r1 = true
  · have hT : addApplication (addApplication emptyTracker c p d1 i1) c p d2 i2 =
        { store := [r1, r2], jobHeap := [1, 0], jobs := [((c, p), 1)] } := by
      rw [ht2, if_pos hcmp]
    have hP1 : processNext { store := [r1, r2], jobHeap := [1, 0], jobs := [((c, p), 1)] } =
        ({ store := [r1, markProcessed r2], jobHeap := [0], jobs := [] }, PopResult.ok 1) := by
      unfold processNext
      rw [heappop_pair (ltStore [r1, r2]) 0 1 0]
      simp only
      rw [show (([r1, r2] : List JobApplication).getD 1 dfltJob) = r2 from rfl, hc2, hp2,
        dictDel_single_self (c, p) 1]
      rfl
    have hP2 : processNext { store := [r1, markProcessed r2], jobHeap := [0], jobs := [] } =
        ({ store := [markProcessed r1, markProcessed r2], jobHeap := [], jobs := [] },
          PopResult.keyError 0) := by
      unfold processNext
      rw [heappop_single (ltStore [r1, markProcessed r2]) 0 0]
      simp only
      rw [show (([r1, markProcessed r2] : List JobApplication).getD 0 dfltJob) = r1 from rfl,
        hc1, hp1]
      rfl
    refine ⟨1, 0, Or.inr rfl, ?_, ?_⟩
    · rw [hT, hP1]
    · rw [hT, hP1]
      simp only
      rw [hP2]
  · have hT : addApplication (addApplication emptyTracker c p d1 i1) c p d2 i2 =
        { store := [r1, r2], jobHeap := [0, 1], jobs := [((c, p), 1)] } := by
      rw [ht2, if_neg hcmp]
    have hP1 : processNext { store := [r1, r2], jobHeap := [0, 1], jobs := [((c, p), 1)] } =
        ({ store := [markProcessed r1, r2], jobHeap := [1], jobs := [] }, PopResult.ok 0) := by
      unfold processNext
      rw [heappop_pair (ltStore [r1, r2]) 0 0 1]
      simp only
      rw [show (([r1, r2] : List JobApplication).getD 0 dfltJob) = r1 from rfl, hc1, hp1,
        dictDel_single_self (c, p) 1]
      rfl
    have hP2 : processNext { store := [markProcessed r1, r2], jobHeap := [1], jobs := [] } =
        ({ store := [markProcessed r1, markProcessed r2], jobHeap := [], jobs := [] },
          PopResult.keyError 1) := by
      unfold processNext
      rw [heappop_single (ltStore [markProcessed r1, r2]) 0 1]
      simp only
      rw [show (([markProcessed r1, r2] : List JobApplication).getD 1 dfltJob) = r2 from rfl,
        hc2, hp2]
      rfl
    refine ⟨0, 1, Or.inl rfl, ?_, ?_⟩
    · rw [hT, hP1]
    · rw [hT, hP1]
      simp only
      rw [hP2]

/-- C6 witness: concrete duplicate adds for Acme/Eng. -/
theorem spec_c6_witness :
    (JobApplication.make "Acme" "Eng" "2025-06-01" 5 =
        Except.ok { company := "Acme", position := "Eng", deadline := ⟨2025, 6, 1⟩,
                    importance := 5, status := "Pending" } ∧
      JobApplication.make "Acme" "Eng" "2025-07-01" 3 =
        Except.ok { company := "Acme", position := "Eng", deadline := ⟨2025, 7, 1⟩,
                    importance := 3, status := "Pending" }) ∧
    (∃ a b : Nat, ((a, b) = (0, 1) ∨ (a, b) = (1, 0)) ∧
      (processNext (addApplication (addApplication emptyTracker "Acme" "Eng" "2025-06-01" 5)
          "Acme" "Eng" "2025-07-01" 3)).2 = PopResult.ok a ∧
      (processNext (processNext (addApplication (addApplication emptyTracker
          "Acme" "Eng" "2025-06-01" 5) "Acme" "Eng" "2025-07-01" 3)).1).2 =
        PopResult.keyError b) :=
  ⟨⟨rfl, rfl⟩, spec_c6 "Acme" "Eng" "2025-06-01" "2025-07-01" 5 3 _ _ rfl rfl⟩
